import Mathlib

/-!
Verification development for the LTLf specification merger
(`ltlf_merger/merger.py`).  Strings are modelled as `List Char`; the
Python functions of the merger are embedded as executable Lean
definitions, and the testable properties of the specification are
settled against them.

Python's `random.shuffle` is modelled by passing the shuffled pool
lists explicitly; a shuffle outcome is exactly a permutation of the
pool, which the embedded plan function checks.  Python's `set`
iteration order (used only to list the collected used variables) is
modelled as first-insertion order; all properties proved here are
insensitive to that order.
-/

/-- Characters matched by the regex class `[a-zA-Z0-9_]` used by the
merger's variable scan. -/
def identChar (c : Char) : Bool := c.isAlpha || c.isDigit || c == '_'

/-- A string all of whose characters are identifier characters. -/
def allIdent (v : List Char) : Bool := v.all identChar

/-- Worker for `tokens`: a skip counter re-traverses characters already
emitted as part of the current maximal identifier run, keeping the
recursion structural so the kernel can evaluate it. -/
def tokensGo : ℕ → List Char → List (List Char)
  | _ + 1, [] => []
  | k + 1, _ :: rest => tokensGo k rest
  | 0, [] => []
  | 0, c :: rest =>
    if identChar c then
      (c :: rest.takeWhile identChar) :: tokensGo (rest.takeWhile identChar).length rest
    else
      tokensGo 0 rest

/-- The maximal runs of identifier characters of a string, in order.
These are the candidate variable occurrences of a formula text. -/
def tokens (s : List Char) : List (List Char) := tokensGo 0 s

/-- Worker for `tokMap`, same skip-counter technique as `tokensGo`. -/
def tokMapGo (f : List Char → List Char) : ℕ → List Char → List Char
  | _ + 1, [] => []
  | k + 1, _ :: rest => tokMapGo f k rest
  | 0, [] => []
  | 0, c :: rest =>
    if identChar c then
      f (c :: rest.takeWhile identChar) ++ tokMapGo f (rest.takeWhile identChar).length rest
    else
      c :: tokMapGo f 0 rest

/-- Rewrite a string by applying `f` to each maximal identifier run and
keeping every other character unchanged. -/
def tokMap (f : List Char → List Char) (s : List Char) : List Char := tokMapGo f 0 s

/-- Worker for `pyReplace`, structural via a skip counter. -/
def pyReplaceGo (old new : List Char) : ℕ → List Char → List Char
  | _ + 1, [] => []
  | k + 1, _ :: rest => pyReplaceGo old new k rest
  | 0, [] => []
  | 0, c :: rest =>
    if old ≠ [] ∧ old.isPrefixOf (c :: rest) then
      new ++ pyReplaceGo old new (old.length - 1) rest
    else
      c :: pyReplaceGo old new 0 rest

/-- Python's `str.replace` for a non-empty pattern: replace every
non-overlapping occurrence of `old` by `new`, scanning left to right.
(For `old = []` this returns `s` unchanged; the merger never replaces
an empty variable name.) -/
def pyReplace (s old new : List Char) : List Char := pyReplaceGo old new 0 s

/-- Association-list lookup keyed on the first components, returning
the first match, as Python's `dict` lookup does for the insertion-order
association lists built by the merger. -/
def alookup (k : List Char) : List (List Char × List Char) → Option (List Char)
  | [] => none
  | p :: rest => if p.1 = k then some p.2 else alookup k rest

/-- Apply a list of `(old, new)` replacement pairs to a string in
order, via `str.replace`, as the rewriting loop of
`merge_specs_inner` does. -/
def applyPairs (ps : List (List Char × List Char)) (s : List Char) : List Char :=
  ps.foldl (fun acc p => pyReplace acc p.1 p.2) s

/-- The token-level substitution induced by a replacement-pair list. -/
def substFn (ps : List (List Char × List Char)) (t : List Char) : List Char :=
  (alookup t ps).getD t

/-- Worker for `findPTokens`: the scan of `re.findall(r'p[a-zA-Z0-9_]+', s)`,
with a skip counter for the characters consumed by a match. -/
def findPGo : ℕ → List Char → List (List Char)
  | _ + 1, [] => []
  | k + 1, _ :: rest => findPGo k rest
  | 0, [] => []
  | 0, c :: rest =>
    if c = 'p' ∧ rest.takeWhile identChar ≠ [] then
      ('p' :: rest.takeWhile identChar) :: findPGo (rest.takeWhile identChar).length rest
    else
      findPGo 0 rest

/-- All matches of the regex `p[a-zA-Z0-9_]+` in scan order: at each
position, a literal `p` followed by a maximal non-empty run of
identifier characters is matched and consumed; otherwise the scan
advances one character.  Matches may begin in the middle of a longer
identifier run. -/
def findPTokens (s : List Char) : List (List Char) := findPGo 0 s

/-- Map a function returning `Option` over a list, failing if any
element fails; models a loop that can raise. -/
def mapOpt (f : α → Option β) : List α → Option (List β)
  | [] => some []
  | a :: l =>
    match f a, mapOpt f l with
    | some b, some bs => some (b :: bs)
    | _, _ => none

/-- Worker for `dedupKeepFirst` carrying the set of already-seen names. -/
def dedupGo (seen : List (List Char)) : List (List Char) → List (List Char)
  | [] => []
  | x :: xs => if x ∈ seen then dedupGo seen xs else x :: dedupGo (x :: seen) xs

/-- Deduplicate keeping first occurrences; models the contents of the
Python `set` of used variables listed in first-insertion order. -/
def dedupKeepFirst (l : List (List Char)) : List (List Char) := dedupGo [] l

/-- The decimal digit character for `n % 10`. -/
def digitChar (n : ℕ) : Char := Char.ofNat (48 + n % 10)

/-- Fuel-based worker for `natDigits` (structural recursion). -/
def natDigitsGo : ℕ → ℕ → List Char
  | 0, _ => []
  | fuel + 1, n => if n < 10 then [digitChar n] else natDigitsGo fuel (n / 10) ++ [digitChar n]

/-- The decimal digits of `n`, as Python's `str(n)` produces for a
natural number. -/
def natDigits (n : ℕ) : List Char := natDigitsGo (n + 1) n

/-! ## Embedding of `ltlf_merger/merger.py` -/

/-- The error cases raised by the per-spec validation in `load_specs`:
`ValueError("Variables must be unique")` and
`ValueError("Environment and system variables share names: ...")`. -/
inductive LoadError
  | duplicate
  | conflict
deriving DecidableEq

/-- `check_variable_repeat`: true iff the Python function raises, i.e.
iff the list contains a repeated name (`len(set(vars)) != len(vars)`). -/
def check_variable_repeat (vars : List (List Char)) : Bool := decide (¬ vars.Nodup)

/-- `check_variable_conflicts`: true iff the Python function raises,
i.e. iff the two declared lists share at least one name. -/
def check_variable_conflicts (env_vars sys_vars : List (List Char)) : Bool :=
  env_vars.any (fun v => decide (v ∈ sys_vars))

/-- `add_brackets_if_needed`: wrap the formula in parentheses unless it
already starts with `(` and ends with `)`. -/
def add_brackets_if_needed (formula : List Char) : List Char :=
  if formula.head? = some '(' ∧ formula.getLast? = some ')' then formula
  else '(' :: (formula ++ [')'])

/-- `create_variable_array`: the names `{pfx}0 .. {pfx}(count-1)`
(Python's `range` of a negative count is empty). -/
def create_variable_array (count : ℤ) (pfx : List Char) : List (List Char) :=
  (List.range count.toNat).map (fun i => pfx ++ natDigits i)

/-- The inner loop of `get_random_replace_plan` for one spec: assign to
each old variable, in order, the last element popped off the shuffled
pool copy; fails (`IndexError: pop from empty list`) if the pool copy
runs out. -/
def popAssign : List (List Char) → List (List Char) →
    Option (List (List Char × List Char) × List (List Char))
  | [], tmp => some ([], tmp)
  | v :: rest, tmp =>
    match tmp.getLast? with
    | none => none
    | some chosen =>
      (popAssign rest tmp.dropLast).map (fun pr => ((v, chosen) :: pr.1, pr.2))

/-- `get_random_replace_plan`: one assignment map per spec, plus the
list of pool names used by at least one spec.  `random.shuffle` is
modelled by the explicit `shuffles` argument, one shuffled copy of
`final_vars` per spec; any outcome of the Python shuffle is exactly a
permutation of `final_vars`, which is checked here. -/
def get_random_replace_plan (old_vars_lists : List (List (List Char)))
    (final_vars : List (List Char)) (shuffles : List (List (List Char))) :
    Option (List (List (List Char × List Char)) × List (List Char)) :=
  if shuffles.length = old_vars_lists.length ∧ ∀ sh ∈ shuffles, sh.Perm final_vars then
    (mapOpt (fun pr => (popAssign pr.1 pr.2).map Prod.fst) (old_vars_lists.zip shuffles)).map
      (fun maps => (maps, dedupKeepFirst (maps.flatMap (fun m => m.map Prod.snd))))
  else none

/-- `get_prefix_without_digits`: the maximal leading run of non-digit
characters (`^[^\d]+`); `none` models the raises on an empty or
all-digit input. -/
def get_prefix_without_digits (s : List Char) : Option (List Char) :=
  if s.takeWhile (fun c => !c.isDigit) = [] then none
  else some (s.takeWhile (fun c => !c.isDigit))

/-- The dictionary `relabel_map` of `relabel_vars_in_plan`, as an
association list built over the used variables in order, numbering
from `i`. -/
def relabelAssocFrom (pfx : List Char) : ℕ → List (List Char) → List (List Char × List Char)
  | _, [] => []
  | i, u :: us => (u, pfx ++ natDigits i) :: relabelAssocFrom pfx (i + 1) us

/-- `relabel_vars_in_plan`: compact the used pool names to
`{pfx}0 .. {pfx}(k-1)` (prefix taken from the first used name) and
rewrite every map's codomain through that renumbering.  `none` models
the raise on an empty `used_vars`, the raises inside
`get_prefix_without_digits`, and a `KeyError` on a codomain name
missing from `used_vars` (never reached from `merge_specs_inner`). -/
def relabel_vars_in_plan (maps : List (List (List Char × List Char)))
    (used_vars : List (List Char)) :
    Option (List (List (List Char × List Char)) × List (List Char)) :=
  match used_vars with
  | [] => none
  | u0 :: rest =>
    match get_prefix_without_digits u0 with
    | none => none
    | some pfx =>
      (mapOpt (fun m => mapOpt
            (fun p => (alookup p.2 (relabelAssocFrom pfx 0 (u0 :: rest))).map
              (fun n => (p.1, n))) m) maps).map
        (fun newMaps => (newMaps, (relabelAssocFrom pfx 0 (u0 :: rest)).map Prod.snd))

/-- Python's `' '.join`. -/
def joinSpace : List (List Char) → List Char
  | [] => []
  | [v] => v
  | v :: rest => v ++ (' ' :: joinSpace rest)

/-- Python's `' && '.join`. -/
def joinAnd : List (List Char) → List Char
  | [] => []
  | [f] => f
  | f :: rest => f ++ (' ' :: '&' :: '&' :: ' ' :: joinAnd rest)

/-- `convert_spec_to_string`: the merged formula text and the merged
`.part` file content. -/
def convert_spec_to_string (formulas : List (List Char))
    (env_vars sys_vars : List (List Char)) : List Char × List Char :=
  (joinAnd formulas,
   ".inputs: ".toList ++ joinSpace env_vars ++
     '\n' :: (".outputs: ".toList ++ joinSpace sys_vars ++ ['\n']))

/-- Python's `int()` truncation toward zero, on rationals. -/
def pyInt (x : ℚ) : ℤ := if 0 ≤ x then ⌊x⌋ else ⌈x⌉

/-- The list `counts = [len(vars) for vars in vars_lists]`. -/
def specCounts (vars_lists : List (List (List Char))) : List ℕ :=
  vars_lists.map List.length

/-- Python's `max(counts)` for a list of naturals (for a non-empty
list, folding `max` from `0` is the maximum). -/
def maxCount (vars_lists : List (List (List Char))) : ℕ :=
  (specCounts vars_lists).foldl max 0

/-- Python's `sum(counts)`. -/
def sumCount (vars_lists : List (List (List Char))) : ℕ :=
  (specCounts vars_lists).sum

/-- `_calculate_merge_vars_count`:
`max(counts) + int((sum(counts) - max(counts)) * share_ratio)`, with
the share ratio modelled as a rational; `none` models the raise of
`max` on an empty list. -/
def calculate_merge_vars_count (vars_lists : List (List (List Char))) (r : ℚ) : Option ℤ :=
  match vars_lists with
  | [] => none
  | _ :: _ =>
    some ((maxCount vars_lists : ℤ) +
      pyInt (((sumCount vars_lists : ℚ) - (maxCount vars_lists : ℚ)) * r))

/-- `_get_used_variables`: the set of regex matches of
`p[a-zA-Z0-9_]+` in the formula, as a list whose membership is the set
membership used by the caller. -/
def get_used_variables (formula : List Char) : List (List Char) := findPTokens formula

/-- The loop body of `load_specs` for one already-read spec: normalize
the formula, validate the declared lists, and narrow them to the
variables found used in the normalized formula. -/
def load_spec_one (formula : List Char) (env_vars sys_vars : List (List Char)) :
    Except LoadError (List Char × List (List Char) × List (List Char)) :=
  if check_variable_repeat env_vars then .error .duplicate
  else if check_variable_repeat sys_vars then .error .duplicate
  else if check_variable_conflicts env_vars sys_vars then .error .conflict
  else
    .ok (add_brackets_if_needed formula,
      env_vars.filter (fun v => decide (v ∈ get_used_variables (add_brackets_if_needed formula))),
      sys_vars.filter (fun v => decide (v ∈ get_used_variables (add_brackets_if_needed formula))))

/-- The rewriting loop of `merge_specs_inner`: for each spec, apply all
environment replacements then all system replacements to its formula
(`zip` truncates to the shortest list, as in Python). -/
def replace_in_formulas (formulas : List (List Char))
    (env_maps sys_maps : List (List (List Char × List Char))) : List (List Char) :=
  (formulas.zip (env_maps.zip sys_maps)).map (fun x => applyPairs (x.2.1 ++ x.2.2) x.1)

/-- `merge_specs_inner`: pool sizing, random assignment, relabeling and
formula rewriting; returns the rewritten formulas and the final
environment and system variable lists. -/
def merge_specs_inner (r : ℚ) (formulas : List (List Char))
    (env_vars_lists sys_vars_lists : List (List (List Char)))
    (env_shuffles sys_shuffles : List (List (List Char))) :
    Option (List (List Char) × List (List Char) × List (List Char)) :=
  match calculate_merge_vars_count env_vars_lists r,
        calculate_merge_vars_count sys_vars_lists r with
  | some env_count, some sys_count =>
    match get_random_replace_plan env_vars_lists (create_variable_array env_count ['e'])
            env_shuffles,
          get_random_replace_plan sys_vars_lists (create_variable_array sys_count ['s'])
            sys_shuffles with
    | some (env_maps, used_env), some (sys_maps, used_sys) =>
      match relabel_vars_in_plan env_maps used_env, relabel_vars_in_plan sys_maps used_sys with
      | some (env_maps2, rel_env), some (sys_maps2, rel_sys) =>
        some (replace_in_formulas formulas env_maps2 sys_maps2, rel_env, rel_sys)
      | _, _ => none
    | _, _ => none
  | _, _ => none

/-! ## Shape predicates for variable names -/

/-- A name of the shape the merger's variable scan can produce: a
literal `p` followed by a non-empty run of identifier characters. -/
def pShapedB (v : List Char) : Bool :=
  match v with
  | c :: u => c == 'p' && !u.isEmpty && u.all identChar
  | [] => false

/-- A name of the shape of a merged pool variable: `e` or `s` followed
by a non-empty run of digits. -/
def poolShapedB (v : List Char) : Bool :=
  match v with
  | [] => false
  | c :: u => (c == 'e' || c == 's') && !u.isEmpty && u.all Char.isDigit

/-- A token that reads as a variable name of this system: either an
original-spec variable shape or a merged pool-variable shape. -/
def varShapedB (v : List Char) : Bool := pShapedB v || poolShapedB v

/-- Conditions on one spec's (formula, env, sys) input under which the
naive substring rewriting behaves as whole-token substitution: names
are of the scanner's shape and duplicate-free, each occurs in the
formula as a maximal identifier run, no name is an infix of a longer
token, and the formula has no token of merged-pool shape and no
undeclared token of scanner shape. -/
def SpecOK (f : List Char) (ev sv : List (List Char)) : Prop :=
  (∀ v ∈ ev ++ sv, pShapedB v = true) ∧
  (ev ++ sv).Nodup ∧
  (∀ v ∈ ev ++ sv, v ∈ tokens f) ∧
  (∀ t ∈ tokens f, ∀ v ∈ ev ++ sv, v <:+: t → t = v) ∧
  (∀ t ∈ tokens f, poolShapedB t = false ∧ (pShapedB t = true → t ∈ ev ++ sv))

instance (f : List Char) (ev sv : List (List Char)) : Decidable (SpecOK f ev sv) := by
  unfold SpecOK; infer_instance

/-- Modelled from the spec: the tokens of a formula that the
specification's variable-usage scan would accept, namely the maximal
tokens "one alphabetic prefix followed by digits/letters/underscore"
(§4.1); used only to compare the specified scan with the implemented
one. -/
def spec_maximal_var_tokens (f : List Char) : List (List Char) :=
  (tokens f).filter (fun t =>
    match t with
    | c :: _ => c.isAlpha
    | [] => false)

/-- A string whose first character, if any, is not an identifier
character; concatenating such a string after another cannot extend the
latter's final identifier run. -/
def Bdry (u : List Char) : Prop := ∀ d, u.head? = some d → identChar d = false

/-- Conditions under which a list of replacement pairs rewrites a
string tokenwise: non-empty identifier-run names on both sides, every
pattern occurring in the string only as whole tokens, and no pattern
an infix of any replacement target. -/
def GoodPairs (ps : List (List Char × List Char)) (s : List Char) : Prop :=
  (∀ p ∈ ps, p.1 ≠ [] ∧ ∀ c ∈ p.1, identChar c = true) ∧
  (∀ p ∈ ps, p.2 ≠ [] ∧ ∀ c ∈ p.2, identChar c = true) ∧
  (∀ p ∈ ps, ∀ t ∈ tokens s, p.1 <:+: t → t = p.1) ∧
  (∀ p ∈ ps, ∀ q ∈ ps, ¬ p.1 <:+: q.2)

instance (ps : List (List Char × List Char)) (s : List Char) :
    Decidable (GoodPairs ps s) := by
  unfold GoodPairs
  infer_instance

deriving instance DecidableEq for Except

/-! ## Unfolding lemmas for the skip-counter workers -/

theorem dropWhile_eq_drop_takeWhile {α} (p : α → Bool) :
    ∀ l : List α, l.dropWhile p = l.drop (l.takeWhile p).length := by
  intro l
  induction l with
  | nil => rfl
  | cons a l ih =>
    by_cases h : p a
    · simp [List.dropWhile_cons, List.takeWhile_cons, h, ih]
    · simp [List.dropWhile_cons, List.takeWhile_cons, h]

theorem tokensGo_skip (n : ℕ) : ∀ s : List Char, tokensGo n s = tokensGo 0 (s.drop n) := by
  induction n with
  | zero => intro s; rw [List.drop_zero]
  | succ k ih =>
    intro s
    cases s with
    | nil => rfl
    | cons c rest => rw [List.drop_succ_cons]; exact ih rest

theorem tokens_nil : tokens [] = [] := rfl

theorem tokens_cons (c : Char) (rest : List Char) :
    tokens (c :: rest) =
      if identChar c then
        (c :: rest.takeWhile identChar) :: tokens (rest.dropWhile identChar)
      else tokens rest := by
  show tokensGo 0 (c :: rest) = _
  simp only [tokensGo]
  rw [tokensGo_skip, ← dropWhile_eq_drop_takeWhile]
  rfl

theorem tokMapGo_skip (f : List Char → List Char) (n : ℕ) :
    ∀ s : List Char, tokMapGo f n s = tokMapGo f 0 (s.drop n) := by
  induction n with
  | zero => intro s; rw [List.drop_zero]
  | succ k ih =>
    intro s
    cases s with
    | nil => rfl
    | cons c rest => rw [List.drop_succ_cons]; exact ih rest

theorem tokMap_nil (f : List Char → List Char) : tokMap f [] = [] := rfl

theorem tokMap_cons (f : List Char → List Char) (c : Char) (rest : List Char) :
    tokMap f (c :: rest) =
      if identChar c then
        f (c :: rest.takeWhile identChar) ++ tokMap f (rest.dropWhile identChar)
      else c :: tokMap f rest := by
  show tokMapGo f 0 (c :: rest) = _
  simp only [tokMapGo]
  rw [tokMapGo_skip, ← dropWhile_eq_drop_takeWhile]
  rfl

theorem findPGo_skip (n : ℕ) : ∀ s : List Char, findPGo n s = findPGo 0 (s.drop n) := by
  induction n with
  | zero => intro s; rw [List.drop_zero]
  | succ k ih =>
    intro s
    cases s with
    | nil => rfl
    | cons c rest => rw [List.drop_succ_cons]; exact ih rest

theorem findPTokens_nil : findPTokens [] = [] := rfl

theorem findPTokens_cons (c : Char) (rest : List Char) :
    findPTokens (c :: rest) =
      if c = 'p' ∧ rest.takeWhile identChar ≠ [] then
        ('p' :: rest.takeWhile identChar) :: findPTokens (rest.dropWhile identChar)
      else findPTokens rest := by
  show findPGo 0 (c :: rest) = _
  simp only [findPGo]
  rw [findPGo_skip, ← dropWhile_eq_drop_takeWhile]
  rfl

theorem pyReplaceGo_skip (old new : List Char) (n : ℕ) :
    ∀ s : List Char, pyReplaceGo old new n s = pyReplaceGo old new 0 (s.drop n) := by
  induction n with
  | zero => intro s; rw [List.drop_zero]
  | succ k ih =>
    intro s
    cases s with
    | nil => rfl
    | cons c rest => rw [List.drop_succ_cons]; exact ih rest

theorem pyReplace_nil (old new : List Char) : pyReplace [] old new = [] := rfl

theorem pyReplace_cons (c : Char) (rest old new : List Char) :
    pyReplace (c :: rest) old new =
      if old ≠ [] ∧ old.isPrefixOf (c :: rest) then
        new ++ pyReplace ((c :: rest).drop old.length) old new
      else c :: pyReplace rest old new := by
  show pyReplaceGo old new 0 (c :: rest) = _
  simp only [pyReplaceGo]
  by_cases h : old ≠ [] ∧ old.isPrefixOf (c :: rest)
  · rw [if_pos h, if_pos h, pyReplaceGo_skip]
    obtain ⟨k, hk⟩ : ∃ k, old.length = k + 1 := by
      cases old with
      | nil => exact absurd rfl h.1
      | cons a l => exact ⟨l.length, rfl⟩
    rw [hk, List.drop_succ_cons]
    rfl
  · rw [if_neg h, if_neg h]
    rfl

/-! ## Structure of token lists -/

/-- Induction along the maximal-identifier-run structure of a string. -/
theorem tokenInduction (motive : List Char → Prop)
    (hnil : motive [])
    (hid : ∀ c rest, identChar c = true → motive (rest.dropWhile identChar) →
      motive (c :: rest))
    (hni : ∀ c rest, identChar c = false → motive rest → motive (c :: rest)) :
    ∀ s, motive s := by
  have key : ∀ (n : ℕ) (s : List Char), s.length ≤ n → motive s := by
    intro n
    induction n with
    | zero =>
      intro s hs
      cases s with
      | nil => exact hnil
      | cons c rest => simp at hs
    | succ n ih =>
      intro s hs
      cases s with
      | nil => exact hnil
      | cons c rest =>
        simp only [List.length_cons] at hs
        by_cases h : identChar c
        · refine hid c rest h (ih _ ?_)
          have := (List.dropWhile_sublist (l := rest) identChar).length_le
          omega
        · refine hni c rest (by simpa using h) (ih _ ?_)
          omega
  intro s
  exact key s.length s le_rfl

/-- Every token is a non-empty run of identifier characters. -/
theorem tokens_sound : ∀ s : List Char, ∀ t ∈ tokens s,
    t ≠ [] ∧ ∀ c ∈ t, identChar c = true := by
  intro s
  induction s using tokenInduction with
  | hnil => intro t ht; simp [tokens_nil] at ht
  | hid c rest hc ih =>
    intro t ht
    rw [tokens_cons, if_pos hc] at ht
    rcases List.mem_cons.mp ht with rfl | ht
    · refine ⟨by simp, ?_⟩
      intro x hx
      rcases List.mem_cons.mp hx with rfl | hx
      · exact hc
      · exact List.mem_takeWhile_imp hx
    · exact ih t ht
  | hni c rest hc ih =>
    intro t ht
    rw [tokens_cons, if_neg (by simp [hc])] at ht
    exact ih t ht

theorem bdry_nil : Bdry [] := by intro d hd; simp at hd

theorem bdry_dropWhile : ∀ l : List Char, Bdry (l.dropWhile identChar) := by
  intro l
  induction l with
  | nil => exact bdry_nil
  | cons a l ih =>
    rw [List.dropWhile_cons]
    by_cases h : identChar a
    · rw [if_pos h]; exact ih
    · rw [if_neg h]
      intro d hd
      rw [List.head?_cons, Option.some.injEq] at hd
      subst hd
      simpa using h

theorem takeWhile_append_bdry {α} (p : α → Bool) :
    ∀ (a b : List α), (∀ d, b.head? = some d → p d = false) →
      (a ++ b).takeWhile p = a.takeWhile p ∧ (a ++ b).dropWhile p = a.dropWhile p ++ b := by
  intro a
  induction a with
  | nil =>
    intro b hb
    cases b with
    | nil => exact ⟨rfl, rfl⟩
    | cons d bs =>
      have hd : p d = false := hb d rfl
      constructor
      · rw [List.nil_append, List.takeWhile_cons_of_neg (by simp [hd])]; rfl
      · rw [List.nil_append, List.dropWhile_cons_of_neg (by simp [hd])]; rfl
  | cons x a ih =>
    intro b hb
    obtain ⟨h1, h2⟩ := ih b hb
    by_cases h : p x
    · constructor
      · rw [List.cons_append, List.takeWhile_cons_of_pos h, List.takeWhile_cons_of_pos h, h1]
      · rw [List.cons_append, List.dropWhile_cons_of_pos h, List.dropWhile_cons_of_pos h, h2]
    · constructor
      · rw [List.cons_append, List.takeWhile_cons_of_neg h, List.takeWhile_cons_of_neg h]
      · rw [List.cons_append, List.dropWhile_cons_of_neg h, List.dropWhile_cons_of_neg h,
          List.cons_append]

theorem tokens_append : ∀ (a b : List Char), Bdry b →
    tokens (a ++ b) = tokens a ++ tokens b := by
  intro a
  induction a using tokenInduction with
  | hnil => intro b hb; rw [List.nil_append, tokens_nil, List.nil_append]
  | hid c rest hc ih =>
    intro b hb
    obtain ⟨h1, h2⟩ := takeWhile_append_bdry identChar rest b hb
    rw [List.cons_append, tokens_cons, tokens_cons, if_pos hc, if_pos hc, h1, h2,
      ih b hb, List.cons_append]
  | hni c rest hc ih =>
    intro b hb
    rw [List.cons_append, tokens_cons, tokens_cons, if_neg (by simp [hc]),
      if_neg (by simp [hc])]
    exact ih b hb

theorem tokMap_append (f : List Char → List Char) :
    ∀ (a b : List Char), Bdry b → tokMap f (a ++ b) = tokMap f a ++ tokMap f b := by
  intro a
  induction a using tokenInduction with
  | hnil => intro b hb; rw [List.nil_append, tokMap_nil, List.nil_append]
  | hid c rest hc ih =>
    intro b hb
    obtain ⟨h1, h2⟩ := takeWhile_append_bdry identChar rest b hb
    rw [List.cons_append, tokMap_cons, tokMap_cons, if_pos hc, if_pos hc, h1, h2,
      ih b hb, List.append_assoc]
  | hni c rest hc ih =>
    intro b hb
    rw [List.cons_append, tokMap_cons, tokMap_cons, if_neg (by simp [hc]),
      if_neg (by simp [hc]), ih b hb, List.cons_append]

theorem takeWhile_all {α} (p : α → Bool) :
    ∀ l : List α, (∀ c ∈ l, p c = true) →
      l.takeWhile p = l ∧ l.dropWhile p = [] := by
  intro l
  induction l with
  | nil => exact fun _ => ⟨rfl, rfl⟩
  | cons a l ih =>
    intro h
    obtain ⟨h1, h2⟩ := ih (fun c hc => h c (List.mem_cons_of_mem a hc))
    have ha := h a (List.mem_cons_self a l)
    constructor
    · rw [List.takeWhile_cons_of_pos ha, h1]
    · rw [List.dropWhile_cons_of_pos ha, h2]

/-- A non-empty all-identifier string is a single token. -/
theorem tokens_ident (t : List Char) (hne : t ≠ [])
    (hall : ∀ c ∈ t, identChar c = true) : tokens t = [t] := by
  cases t with
  | nil => exact absurd rfl hne
  | cons c rest =>
    obtain ⟨h1, h2⟩ := takeWhile_all identChar rest
      (fun x hx => hall x (List.mem_cons_of_mem c hx))
    rw [tokens_cons, if_pos (hall c (List.mem_cons_self c rest)), h1, h2, tokens_nil]

theorem tokMap_ident (f : List Char → List Char) (t : List Char) (hne : t ≠ [])
    (hall : ∀ c ∈ t, identChar c = true) : tokMap f t = f t := by
  cases t with
  | nil => exact absurd rfl hne
  | cons c rest =>
    obtain ⟨h1, h2⟩ := takeWhile_all identChar rest
      (fun x hx => hall x (List.mem_cons_of_mem c hx))
    rw [tokMap_cons, if_pos (hall c (List.mem_cons_self c rest)), h1, h2, tokMap_nil,
      List.append_nil]

theorem bdry_tokMap (f : List Char → List Char) :
    ∀ u : List Char, Bdry u → Bdry (tokMap f u) := by
  intro u hu
  cases u with
  | nil => exact bdry_nil
  | cons d us =>
    have hd : identChar d = false := hu d rfl
    rw [tokMap_cons, if_neg (by simp [hd])]
    intro x hx
    rw [List.head?_cons, Option.some.injEq] at hx
    subst hx
    exact hd

/-! ## Naive substring replacement acts tokenwise -/

/-- An all-identifier pattern that is not an infix of the token run
starting the string cannot match at its start. -/
theorem not_pattern_at_token (old : List Char)
    (holdid : ∀ c ∈ old, identChar c = true)
    (a : Char) (t u : List Char)
    (hni : ¬ old <:+: a :: t) (hb : Bdry u) :
    ¬ (old ≠ [] ∧ old.isPrefixOf (a :: (t ++ u))) := by
  rintro ⟨hne, hp⟩
  have hp' : old <+: (a :: t) ++ u := List.isPrefixOf_iff_prefix.mp hp
  have heq : old = ((a :: t) ++ u).take old.length := List.prefix_iff_eq_take.mp hp'
  rcases le_or_lt old.length (a :: t).length with hle | hlt
  · apply hni
    rw [List.take_append_of_le_length hle] at heq
    have hpre : old <+: (a :: t) := by
      rw [heq]
      exact List.take_prefix _ _
    exact hpre.isInfix
  · rw [List.take_append_eq_append_take, List.take_of_length_le (le_of_lt hlt)] at heq
    cases u with
    | nil =>
      rw [List.take_nil, List.append_nil] at heq
      have := congrArg List.length heq
      simp only [List.length_cons] at this hlt
      omega
    | cons d us =>
      have hd : identChar d = false := hb d rfl
      have hk : old.length - (a :: t).length = (old.length - (a :: t).length - 1) + 1 := by
        simp only [List.length_cons] at hlt ⊢
        omega
      have hdin : d ∈ old := by
        rw [heq, hk, List.take_succ_cons]
        exact List.mem_append_right _ (List.mem_cons_self d _)
      have htrue := holdid d hdin
      rw [htrue] at hd
      simp at hd

/-- `str.replace` passes over a complete token run that the pattern is
not an infix of. -/
theorem pyReplace_token_step (old new : List Char)
    (holdid : ∀ c ∈ old, identChar c = true) :
    ∀ (t u : List Char), (∀ c ∈ t, identChar c = true) → ¬ old <:+: t → Bdry u →
      pyReplace (t ++ u) old new = t ++ pyReplace u old new := by
  intro t
  induction t with
  | nil => intro u _ _ _; rw [List.nil_append, List.nil_append]
  | cons a t ih =>
    intro u hall hni hb
    rw [List.cons_append, pyReplace_cons,
      if_neg (not_pattern_at_token old holdid a t u hni hb),
      ih u (fun c hc => hall c (List.mem_cons_of_mem a hc))
        (fun h => hni (List.infix_cons h)) hb]
    rfl

/-- Core lemma: when the pattern is a non-empty identifier string that
occurs in `s` only as whole maximal tokens, `str.replace` is exactly
the tokenwise substitution of `old` by `new`. -/
theorem pyReplace_eq_tokMap (old new : List Char) (hne : old ≠ [])
    (holdid : ∀ c ∈ old, identChar c = true) :
    ∀ s : List Char, (∀ t ∈ tokens s, old <:+: t → t = old) →
      pyReplace s old new = tokMap (fun t => if t = old then new else t) s := by
  intro s
  induction s using tokenInduction with
  | hnil => intro _; rfl
  | hid c rest hc ih =>
    intro hiso
    have hsplit : c :: rest = (c :: rest.takeWhile identChar) ++ rest.dropWhile identChar := by
      rw [List.cons_append, List.takeWhile_append_dropWhile]
    have htok : (c :: rest.takeWhile identChar) ∈ tokens (c :: rest) := by
      rw [tokens_cons, if_pos hc]
      exact List.mem_cons_self _ _
    have hall := (tokens_sound _ _ htok).2
    have hiso' : ∀ t ∈ tokens (rest.dropWhile identChar), old <:+: t → t = old := by
      intro t ht
      apply hiso
      rw [tokens_cons, if_pos hc]
      exact List.mem_cons_of_mem _ ht
    rw [tokMap_cons, if_pos hc]
    by_cases heq : c :: rest.takeWhile identChar = old
    · rw [if_pos heq, pyReplace_cons]
      have hdecomp : c :: rest = old ++ rest.dropWhile identChar := by
        rw [← heq]
        exact hsplit
      have hpre : old.isPrefixOf (c :: rest) := by
        rw [List.isPrefixOf_iff_prefix, hdecomp]
        exact List.prefix_append _ _
      rw [if_pos ⟨hne, hpre⟩, hdecomp, List.drop_left, ih hiso']
    · rw [if_neg heq]
      have hni : ¬ old <:+: (c :: rest.takeWhile identChar) := fun h => heq (hiso _ htok h)
      calc pyReplace (c :: rest) old new
          = pyReplace ((c :: rest.takeWhile identChar) ++ rest.dropWhile identChar) old new := by
            rw [← hsplit]
        _ = (c :: rest.takeWhile identChar) ++ pyReplace (rest.dropWhile identChar) old new :=
            pyReplace_token_step old new holdid _ _ hall hni (bdry_dropWhile rest)
        _ = (c :: rest.takeWhile identChar) ++
              tokMap (fun t => if t = old then new else t) (rest.dropWhile identChar) := by
            rw [ih hiso']
  | hni c rest hc ih =>
    intro hiso
    have hnp : ¬ (old ≠ [] ∧ old.isPrefixOf (c :: rest)) := by
      rintro ⟨hne', hp⟩
      cases old with
      | nil => exact hne' rfl
      | cons o os =>
        obtain ⟨w, hw⟩ := List.isPrefixOf_iff_prefix.mp hp
        have hoc : o = c := by
          rw [List.cons_append] at hw
          exact (List.cons.injEq _ _ _ _ ▸ hw).1
        have htrue := holdid o (List.mem_cons_self o os)
        rw [hoc, hc] at htrue
        simp at htrue
    rw [tokMap_cons, if_neg (by simp [hc]), pyReplace_cons, if_neg hnp,
      ih (fun t ht => hiso t (by rw [tokens_cons, if_neg (by simp [hc])]; exact ht))]

/-- The tokens of a tokenwise-rewritten string are the images of the
original tokens, provided the images are non-empty identifier runs. -/
theorem tokens_tokMap (f : List Char → List Char) :
    ∀ s : List Char, (∀ t ∈ tokens s, f t ≠ [] ∧ ∀ c ∈ f t, identChar c = true) →
      tokens (tokMap f s) = (tokens s).map f := by
  intro s
  induction s using tokenInduction with
  | hnil => intro _; rfl
  | hid c rest hc ih =>
    intro hf
    have htok : (c :: rest.takeWhile identChar) ∈ tokens (c :: rest) := by
      rw [tokens_cons, if_pos hc]
      exact List.mem_cons_self _ _
    obtain ⟨hfne, hfid⟩ := hf _ htok
    have hbd : Bdry (tokMap f (rest.dropWhile identChar)) :=
      bdry_tokMap f _ (bdry_dropWhile rest)
    rw [tokMap_cons, if_pos hc, tokens_append _ _ hbd, tokens_ident _ hfne hfid,
      ih (fun t ht => hf t (by rw [tokens_cons, if_pos hc]; exact List.mem_cons_of_mem _ ht)),
      tokens_cons, if_pos hc, List.map_cons, List.singleton_append]
  | hni c rest hc ih =>
    intro hf
    rw [tokMap_cons, if_neg (by simp [hc]), tokens_cons (c := c), if_neg (by simp [hc]),
      ih (fun t ht => hf t (by rw [tokens_cons, if_neg (by simp [hc])]; exact ht)),
      tokens_cons, if_neg (by simp [hc])]

/-- Composition of tokenwise rewrites. -/
theorem tokMap_tokMap (f g : List Char → List Char) :
    ∀ s : List Char, (∀ t ∈ tokens s, g t ≠ [] ∧ ∀ c ∈ g t, identChar c = true) →
      tokMap f (tokMap g s) = tokMap (fun t => f (g t)) s := by
  intro s
  induction s using tokenInduction with
  | hnil => intro _; rfl
  | hid c rest hc ih =>
    intro hg
    have htok : (c :: rest.takeWhile identChar) ∈ tokens (c :: rest) := by
      rw [tokens_cons, if_pos hc]
      exact List.mem_cons_self _ _
    obtain ⟨hgne, hgid⟩ := hg _ htok
    have hbd : Bdry (tokMap g (rest.dropWhile identChar)) :=
      bdry_tokMap g _ (bdry_dropWhile rest)
    rw [tokMap_cons, if_pos hc, tokMap_append _ _ _ hbd, tokMap_ident _ _ hgne hgid,
      ih (fun t ht => hg t (by rw [tokens_cons, if_pos hc]; exact List.mem_cons_of_mem _ ht)),
      tokMap_cons, if_pos hc]
  | hni c rest hc ih =>
    intro hg
    rw [tokMap_cons, if_neg (by simp [hc]), tokMap_cons (c := c), if_neg (by simp [hc]),
      ih (fun t ht => hg t (by rw [tokens_cons, if_neg (by simp [hc])]; exact ht)),
      tokMap_cons, if_neg (by simp [hc])]

/-! ## Association-list lookup lemmas -/

theorem alookup_eq_none_iff (k : List Char) :
    ∀ ps : List (List Char × List Char), alookup k ps = none ↔ k ∉ ps.map Prod.fst := by
  intro ps
  induction ps with
  | nil => simp [alookup]
  | cons p ps ih =>
    by_cases h : p.1 = k
    · simp [alookup, h]
    · simp [alookup, h, ih, Ne.symm h]

theorem alookup_some_mem (k v : List Char) :
    ∀ ps : List (List Char × List Char), alookup k ps = some v → (k, v) ∈ ps := by
  intro ps
  induction ps with
  | nil => intro h; simp [alookup] at h
  | cons p ps ih =>
    intro h
    rw [alookup] at h
    by_cases hp : p.1 = k
    · rw [if_pos hp] at h
      obtain rfl := Option.some.inj h
      obtain ⟨a, b⟩ := p
      obtain rfl : a = k := hp
      exact List.mem_cons_self _ _
    · rw [if_neg hp] at h
      exact List.mem_cons_of_mem _ (ih h)

theorem alookup_of_mem_nodup (k v : List Char) :
    ∀ ps : List (List Char × List Char), (ps.map Prod.fst).Nodup → (k, v) ∈ ps →
      alookup k ps = some v := by
  intro ps
  induction ps with
  | nil => intro _ h; simp at h
  | cons p ps ih =>
    intro hnd hm
    rw [List.map_cons, List.nodup_cons] at hnd
    rcases List.mem_cons.mp hm with rfl | hm
    · rw [alookup, if_pos rfl]
    · have hk : p.1 ≠ k := by
        intro he
        exact hnd.1 (he ▸ List.mem_map.mpr ⟨(k, v), hm, rfl⟩)
      rw [alookup, if_neg hk]
      exact ih hnd.2 hm

theorem alookup_append_left (k v : List Char) :
    ∀ l₁ l₂ : List (List Char × List Char), alookup k l₁ = some v →
      alookup k (l₁ ++ l₂) = some v := by
  intro l₁
  induction l₁ with
  | nil => intro l₂ h; simp [alookup] at h
  | cons p l₁ ih =>
    intro l₂ h
    rw [alookup] at h
    rw [List.cons_append, alookup]
    by_cases hp : p.1 = k
    · rwa [if_pos hp] at h ⊢
    · rw [if_neg hp] at h ⊢
      exact ih l₂ h

theorem alookup_append_right (k : List Char) :
    ∀ l₁ l₂ : List (List Char × List Char), k ∉ l₁.map Prod.fst →
      alookup k (l₁ ++ l₂) = alookup k l₂ := by
  intro l₁
  induction l₁ with
  | nil => intro l₂ _; rfl
  | cons p l₁ ih =>
    intro l₂ hk
    rw [List.map_cons] at hk
    have hp : p.1 ≠ k := fun he => hk (he ▸ List.mem_cons_self _ _)
    rw [List.cons_append, alookup, if_neg hp]
    exact ih l₂ (fun hm => hk (List.mem_cons_of_mem _ hm))

theorem alookup_perm (t : List Char) (ps qs : List (List Char × List Char))
    (hperm : ps.Perm qs) (hnd : (ps.map Prod.fst).Nodup) :
    alookup t ps = alookup t qs := by
  have hndq : (qs.map Prod.fst).Nodup := ((hperm.map Prod.fst).nodup_iff).mp hnd
  match h : alookup t ps with
  | some v =>
    have hm : (t, v) ∈ qs := hperm.mem_iff.mp (alookup_some_mem t v ps h)
    rw [alookup_of_mem_nodup t v qs hndq hm]
  | none =>
    have : t ∉ qs.map Prod.fst := by
      intro hm
      exact (alookup_eq_none_iff t ps).mp h ((hperm.map Prod.fst).mem_iff.mpr hm)
    rw [(alookup_eq_none_iff t qs).mpr this]

/-! ## Sequential replacement as a single tokenwise substitution -/

theorem tokMap_id : ∀ s : List Char, tokMap (fun t => t) s = s := by
  intro s
  induction s using tokenInduction with
  | hnil => rfl
  | hid c rest hc ih =>
    rw [tokMap_cons, if_pos hc, ih, List.cons_append, List.takeWhile_append_dropWhile]
  | hni c rest hc ih => rw [tokMap_cons, if_neg (by simp [hc]), ih]

theorem applyPairs_eq_tokMap :
    ∀ (ps : List (List Char × List Char)) (s : List Char), GoodPairs ps s →
      applyPairs ps s = tokMap (substFn ps) s := by
  intro ps
  induction ps with
  | nil =>
    intro s _
    show s = tokMap (substFn []) s
    have hid : substFn [] = fun t => t := by
      funext t
      rfl
    rw [hid, tokMap_id]
  | cons p ps ih =>
    intro s hgp
    obtain ⟨h1, h2, h3, h4⟩ := hgp
    obtain ⟨hp1ne, hp1id⟩ := h1 p (List.mem_cons_self _ _)
    obtain ⟨hp2ne, hp2id⟩ := h2 p (List.mem_cons_self _ _)
    have step : applyPairs (p :: ps) s = applyPairs ps (pyReplace s p.1 p.2) := rfl
    have hA : pyReplace s p.1 p.2 = tokMap (fun t => if t = p.1 then p.2 else t) s :=
      pyReplace_eq_tokMap p.1 p.2 hp1ne hp1id s
        (fun t ht => h3 p (List.mem_cons_self _ _) t ht)
    have hf1tok : ∀ t ∈ tokens s,
        (if t = p.1 then p.2 else t) ≠ [] ∧
        ∀ c ∈ (if t = p.1 then p.2 else t), identChar c = true := by
      intro t ht
      by_cases he : t = p.1
      · rw [if_pos he]
        exact ⟨hp2ne, hp2id⟩
      · rw [if_neg he]
        exact tokens_sound s t ht
    have htokimg : tokens (tokMap (fun t => if t = p.1 then p.2 else t) s) =
        (tokens s).map (fun t => if t = p.1 then p.2 else t) :=
      tokens_tokMap _ s hf1tok
    have hgp' : GoodPairs ps (tokMap (fun t => if t = p.1 then p.2 else t) s) := by
      refine ⟨fun q hq => h1 q (List.mem_cons_of_mem _ hq),
              fun q hq => h2 q (List.mem_cons_of_mem _ hq), ?_,
              fun q hq r hr =>
                h4 q (List.mem_cons_of_mem _ hq) r (List.mem_cons_of_mem _ hr)⟩
      intro q hq t ht hinf
      rw [htokimg] at ht
      obtain ⟨t0, ht0, rfl⟩ := List.mem_map.mp ht
      by_cases he : t0 = p.1
      · exfalso
        apply h4 q (List.mem_cons_of_mem _ hq) p (List.mem_cons_self _ _)
        simpa [he] using hinf
      · rw [if_neg he] at hinf ⊢
        exact h3 q (List.mem_cons_of_mem _ hq) t0 ht0 hinf
    rw [step, hA, ih _ hgp', tokMap_tokMap _ _ s hf1tok]
    congr 1
    funext t
    by_cases he : t = p.1
    · have hnone : alookup p.2 ps = none := by
        rw [alookup_eq_none_iff]
        intro hm
        obtain ⟨q, hq, hqe⟩ := List.mem_map.mp hm
        exact h4 q (List.mem_cons_of_mem _ hq) p (List.mem_cons_self _ _)
          (hqe ▸ List.infix_refl q.1)
      show substFn ps (if t = p.1 then p.2 else t) = substFn (p :: ps) t
      rw [if_pos he]
      show (alookup p.2 ps).getD p.2 = (alookup t (p :: ps)).getD t
      rw [hnone, alookup, if_pos he.symm]
      rfl
    · show substFn ps (if t = p.1 then p.2 else t) = substFn (p :: ps) t
      rw [if_neg he]
      show (alookup t ps).getD t = (alookup t (p :: ps)).getD t
      rw [alookup, if_neg (fun hp => he hp.symm)]

/-- The application of a list of replacement pairs is invariant under
permutation of the pairs, under the tokenwise conditions and
duplicate-free pattern names. -/
theorem applyPairs_perm_eq (ps qs : List (List Char × List Char)) (s : List Char)
    (hperm : qs.Perm ps) (hgp : GoodPairs ps s) (hnd : (ps.map Prod.fst).Nodup) :
    applyPairs qs s = applyPairs ps s := by
  have hgpq : GoodPairs qs s := by
    obtain ⟨h1, h2, h3, h4⟩ := hgp
    exact ⟨fun q hq => h1 q (hperm.mem_iff.mp hq),
           fun q hq => h2 q (hperm.mem_iff.mp hq),
           fun q hq => h3 q (hperm.mem_iff.mp hq),
           fun q hq r hr => h4 q (hperm.mem_iff.mp hq) r (hperm.mem_iff.mp hr)⟩
  rw [applyPairs_eq_tokMap qs s hgpq, applyPairs_eq_tokMap ps s hgp]
  congr 1
  funext t
  show (alookup t qs).getD t = (alookup t ps).getD t
  have hndq : (qs.map Prod.fst).Nodup := ((hperm.map Prod.fst).nodup_iff).mpr hnd
  rw [alookup_perm t qs ps hperm hndq]

/-! ## Lemmas about `mapOpt`, digits, deduplication and assignment -/

theorem mapOpt_some_forall₂ {α β} (f : α → Option β) :
    ∀ (l : List α) (r : List β), mapOpt f l = some r →
      List.Forall₂ (fun a b => f a = some b) l r := by
  intro l
  induction l with
  | nil =>
    intro r h
    rw [mapOpt] at h
    obtain rfl := Option.some.inj h
    exact List.Forall₂.nil
  | cons a l ih =>
    intro r h
    rw [mapOpt] at h
    cases hfa : f a with
    | none =>
      rw [hfa] at h
      cases hml : mapOpt f l with
      | none => rw [hml] at h; simp at h
      | some bs => rw [hml] at h; simp at h
    | some b =>
      rw [hfa] at h
      cases hml : mapOpt f l with
      | none => rw [hml] at h; simp at h
      | some bs =>
        rw [hml] at h
        obtain rfl := Option.some.inj h
        exact List.Forall₂.cons hfa (ih bs hml)

theorem mapOpt_some_of_forall {α β} (f : α → Option β) :
    ∀ l : List α, (∀ a ∈ l, ∃ b, f a = some b) → ∃ r, mapOpt f l = some r := by
  intro l
  induction l with
  | nil => intro _; exact ⟨[], rfl⟩
  | cons a l ih =>
    intro h
    obtain ⟨b, hb⟩ := h a (List.mem_cons_self _ _)
    obtain ⟨r, hr⟩ := ih (fun x hx => h x (List.mem_cons_of_mem _ hx))
    exact ⟨b :: r, by rw [mapOpt, hb, hr]⟩

theorem digitChar_isDigit (n : ℕ) : (digitChar n).isDigit = true := by
  have h : n % 10 < 10 := Nat.mod_lt _ (by omega)
  have he : digitChar n = Char.ofNat (48 + n % 10) := rfl
  generalize hk : n % 10 = k at h he
  rw [he]
  interval_cases k <;> decide

theorem natDigitsGo_facts (fuel : ℕ) :
    ∀ n : ℕ, n < fuel →
      natDigitsGo fuel n ≠ [] ∧ ∀ c ∈ natDigitsGo fuel n, c.isDigit = true := by
  induction fuel with
  | zero => intro n h; omega
  | succ fuel ih =>
    intro n h
    rw [natDigitsGo]
    by_cases h10 : n < 10
    · rw [if_pos h10]
      refine ⟨by simp, ?_⟩
      intro c hc
      rw [List.mem_singleton] at hc
      subst hc
      exact digitChar_isDigit n
    · rw [if_neg h10]
      have hlt : n / 10 < fuel := by omega
      obtain ⟨h1, h2⟩ := ih (n / 10) hlt
      refine ⟨by simp, ?_⟩
      intro c hc
      rcases List.mem_append.mp hc with hc | hc
      · exact h2 c hc
      · rw [List.mem_singleton] at hc
        subst hc
        exact digitChar_isDigit n

theorem natDigits_ne_nil (n : ℕ) : natDigits n ≠ [] :=
  (natDigitsGo_facts (n + 1) n (by omega)).1

theorem natDigits_all_digit (n : ℕ) : ∀ c ∈ natDigits n, c.isDigit = true :=
  (natDigitsGo_facts (n + 1) n (by omega)).2

theorem identChar_of_isDigit (c : Char) (h : c.isDigit = true) : identChar c = true := by
  simp [identChar, h]

theorem not_isDigit_p : ('p').isDigit = false := by decide

/-- Every character of a pool name `{pfx}{i}` with `pfx ∈ {e, s}` is an
identifier character, and `p` is not among them. -/
theorem pool_name_chars (c0 : Char) (hc0 : c0 = 'e' ∨ c0 = 's') (i : ℕ) :
    ([c0] ++ natDigits i ≠ [] ∧ ∀ c ∈ [c0] ++ natDigits i, identChar c = true) ∧
      'p' ∉ [c0] ++ natDigits i := by
  constructor
  · refine ⟨by simp, ?_⟩
    intro c hc
    rcases List.mem_append.mp hc with hc | hc
    · rw [List.mem_singleton] at hc
      subst hc
      rcases hc0 with rfl | rfl <;> decide
    · exact identChar_of_isDigit c (natDigits_all_digit i c hc)
  · intro hp
    rcases List.mem_append.mp hp with hp | hp
    · rw [List.mem_singleton] at hp
      rcases hc0 with rfl | rfl <;> simp at hp
    · have := natDigits_all_digit i 'p' hp
      rw [not_isDigit_p] at this
      simp at this

theorem mem_dedupGo (x : List Char) :
    ∀ (l seen : List (List Char)), x ∈ dedupGo seen l ↔ x ∈ l ∧ x ∉ seen := by
  intro l
  induction l with
  | nil => intro seen; simp [dedupGo]
  | cons a l ih =>
    intro seen
    rw [dedupGo]
    by_cases h : a ∈ seen
    · rw [if_pos h, ih]
      constructor
      · rintro ⟨hx, hs⟩
        exact ⟨List.mem_cons_of_mem _ hx, hs⟩
      · rintro ⟨hx, hs⟩
        rcases List.mem_cons.mp hx with rfl | hx
        · exact absurd h hs
        · exact ⟨hx, hs⟩
    · rw [if_neg h]
      constructor
      · intro hx
        rcases List.mem_cons.mp hx with rfl | hx
        · exact ⟨List.mem_cons_self _ _, h⟩
        · obtain ⟨h1, h2⟩ := (ih (a :: seen)).mp hx
          exact ⟨List.mem_cons_of_mem _ h1, fun hm => h2 (List.mem_cons_of_mem _ hm)⟩
      · rintro ⟨hx, hs⟩
        rcases List.mem_cons.mp hx with rfl | hx
        · exact List.mem_cons_self _ _
        · by_cases hxa : x = a
          · subst hxa
            exact List.mem_cons_self _ _
          · refine List.mem_cons_of_mem _ ((ih (a :: seen)).mpr ⟨hx, ?_⟩)
            intro hm
            rcases List.mem_cons.mp hm with h' | h'
            · exact hxa h'
            · exact hs h'

theorem dedupGo_nodup : ∀ (l seen : List (List Char)), (dedupGo seen l).Nodup := by
  intro l
  induction l with
  | nil => intro seen; exact List.nodup_nil
  | cons a l ih =>
    intro seen
    rw [dedupGo]
    by_cases h : a ∈ seen
    · rw [if_pos h]
      exact ih seen
    · rw [if_neg h, List.nodup_cons]
      refine ⟨?_, ih (a :: seen)⟩
      intro hm
      exact ((mem_dedupGo a l (a :: seen)).mp hm).2 (List.mem_cons_self _ _)

theorem mem_dedupKeepFirst (x : List Char) (l : List (List Char)) :
    x ∈ dedupKeepFirst l ↔ x ∈ l := by
  rw [dedupKeepFirst, mem_dedupGo]
  simp

theorem dedupKeepFirst_nodup (l : List (List Char)) : (dedupKeepFirst l).Nodup :=
  dedupGo_nodup l []

theorem popAssign_some (old : List (List Char)) :
    ∀ (tmp : List (List Char)) (m : List (List Char × List Char))
      (rest : List (List Char)), popAssign old tmp = some (m, rest) →
      m.map Prod.fst = old ∧ (∀ p ∈ m, p.2 ∈ tmp) ∧
        (tmp.Nodup → (m.map Prod.snd).Nodup) := by
  induction old with
  | nil =>
    intro tmp m rest h
    rw [popAssign] at h
    obtain ⟨h1, h2⟩ := Prod.ext_iff.mp (Option.some.inj h)
    subst h1
    exact ⟨rfl, by simp, fun _ => List.nodup_nil⟩
  | cons v old ih =>
    intro tmp m rest h
    rw [popAssign] at h
    cases hl : tmp.getLast? with
    | none => rw [hl] at h; simp at h
    | some chosen =>
      rw [hl] at h
      cases hpa : popAssign old tmp.dropLast with
      | none => rw [hpa] at h; simp at h
      | some pr =>
        rw [hpa] at h
        simp only [Option.map_some, Option.some.injEq, Prod.mk.injEq] at h
        obtain ⟨h1, h2⟩ := h
        obtain ⟨hkeys, hmem, hnd⟩ := ih tmp.dropLast pr.1 pr.2 (by rw [hpa])
        have hchosen : chosen ∈ tmp := List.mem_of_getLast?_eq_some hl
        have hsub : ∀ x, x ∈ tmp.dropLast → x ∈ tmp := (List.dropLast_sublist tmp).subset
        refine ⟨?_, ?_, ?_⟩
        · rw [List.map_cons, hkeys]
        · intro p hp
          rcases List.mem_cons.mp hp with rfl | hp
          · exact hchosen
          · exact hsub _ (hmem p hp)
        · intro hndt
          rw [List.map_cons, List.nodup_cons]
          obtain ⟨ys, hys⟩ := List.getLast?_eq_some_iff.mp hl
          have hdl : tmp.dropLast = ys := by rw [hys, List.dropLast_concat]
          have hnddl : tmp.dropLast.Nodup := (List.dropLast_sublist tmp).nodup hndt
          have hcn : chosen ∉ tmp.dropLast := by
            rw [hdl]
            intro hmem2
            have hndt2 : (ys ++ [chosen]).Nodup := hys ▸ hndt
            rcases List.nodup_append.mp hndt2 with ⟨-, -, hdisj⟩
            exact hdisj hmem2 (List.mem_singleton.mpr rfl)
          refine ⟨?_, hnd hnddl⟩
          intro hmem'
          obtain ⟨p, hp, hpe⟩ := List.mem_map.mp hmem'
          apply hcn
          have hpd := hmem p hp
          rw [hpe] at hpd
          exact hpd

theorem popAssign_isSome_iff (old : List (List Char)) :
    ∀ tmp : List (List Char),
      (∃ res, popAssign old tmp = some res) ↔ old.length ≤ tmp.length := by
  induction old with
  | nil =>
    intro tmp
    constructor
    · intro _
      simp
    · intro _
      exact ⟨([], tmp), rfl⟩
  | cons v old ih =>
    intro tmp
    rw [popAssign]
    cases hl : tmp.getLast? with
    | none =>
      have htmp : tmp = [] := List.getLast?_eq_none_iff.mp hl
      subst htmp
      simp
    | some chosen =>
      have htne : tmp ≠ [] := by
        intro he
        rw [he] at hl
        simp at hl
      have hpos : 0 < tmp.length := List.length_pos.mpr htne
      constructor
      · rintro ⟨res, hres⟩
        cases hpa : popAssign old tmp.dropLast with
        | none => rw [hpa] at hres; simp at hres
        | some pr =>
          have hle := (ih tmp.dropLast).mp ⟨pr, hpa⟩
          rw [List.length_dropLast] at hle
          simp only [List.length_cons]
          omega
      · intro hlen
        simp only [List.length_cons] at hlen
        obtain ⟨pr, hpr⟩ := (ih tmp.dropLast).mpr (by rw [List.length_dropLast]; omega)
        refine ⟨((v, chosen) :: pr.1, pr.2), ?_⟩
        rw [hpr]
        rfl

/-- Inversion of a successful `get_random_replace_plan`. -/
theorem get_random_replace_plan_inv (ol : List (List (List Char)))
    (fv : List (List Char)) (shs : List (List (List Char)))
    (maps : List (List (List Char × List Char))) (used : List (List Char))
    (h : get_random_replace_plan ol fv shs = some (maps, used)) :
    shs.length = ol.length ∧
    (∀ sh ∈ shs, sh.Perm fv) ∧
    maps.length = ol.length ∧
    (∀ i (h1 : i < maps.length) (h2 : i < ol.length) (h3 : i < shs.length),
      ∃ rest, popAssign (ol.get ⟨i, h2⟩) (shs.get ⟨i, h3⟩) = some (maps.get ⟨i, h1⟩, rest)) ∧
    used = dedupKeepFirst (maps.flatMap (fun m => m.map Prod.snd)) := by
  rw [get_random_replace_plan] at h
  split at h
  case isFalse hg => exact Option.noConfusion h
  case isTrue hg =>
    obtain ⟨hlen, hperm⟩ := hg
    cases hmo : mapOpt (fun pr => (popAssign pr.1 pr.2).map Prod.fst) (ol.zip shs) with
    | none => rw [hmo] at h; exact Option.noConfusion h
    | some ms =>
      rw [hmo] at h
      rw [Option.map_some'] at h
      simp only [Option.some.injEq, Prod.mk.injEq] at h
      obtain ⟨h1, h2⟩ := h
      subst h1
      subst h2
      have hf2 := mapOpt_some_forall₂ _ _ _ hmo
      have hzlen : (ol.zip shs).length = ol.length := by
        rw [List.length_zip, hlen, min_self]
      have hmslen : ms.length = ol.length := by
        rw [← hf2.length_eq, hzlen]
      refine ⟨hlen, hperm, hmslen, ?_, rfl⟩
      intro i h1 h2 h3
      have hget := (List.forall₂_iff_get.mp hf2).2 i (by omega) (by omega)
      have hzget : (ol.zip shs).get ⟨i, by omega⟩ = (ol.get ⟨i, h2⟩, shs.get ⟨i, h3⟩) := by
        simp [List.get_eq_getElem, List.getElem_zip]
      rw [hzget] at hget
      cases hpa : popAssign (ol.get ⟨i, h2⟩) (shs.get ⟨i, h3⟩) with
      | none => rw [hpa] at hget; exact Option.noConfusion hget
      | some pr =>
        rw [hpa] at hget
        rw [Option.map_some'] at hget
        simp only [Option.some.injEq] at hget
        exact ⟨pr.2, by rw [← hget]⟩

theorem relabel_pair_eq (A : List (List Char × List Char)) (p p2 : List Char × List Char)
    (h : (alookup p.2 A).map (fun n => (p.1, n)) = some p2) :
    p2.1 = p.1 ∧ alookup p.2 A = some p2.2 := by
  cases ha : alookup p.2 A with
  | none => rw [ha] at h; exact Option.noConfusion h
  | some n =>
    rw [ha] at h
    rw [Option.map_some'] at h
    simp only [Option.some.injEq] at h
    rw [← h]
    exact ⟨rfl, rfl⟩

/-- Inversion of a successful `relabel_vars_in_plan`. -/
theorem relabel_vars_in_plan_inv (maps : List (List (List Char × List Char)))
    (used_vars : List (List Char)) (maps2 : List (List (List Char × List Char)))
    (rel : List (List Char))
    (h : relabel_vars_in_plan maps used_vars = some (maps2, rel)) :
    used_vars ≠ [] ∧
    ∃ pfx, (∀ u0, used_vars.head? = some u0 → get_prefix_without_digits u0 = some pfx) ∧
      rel = (relabelAssocFrom pfx 0 used_vars).map Prod.snd ∧
      List.Forall₂ (fun m m2 => List.Forall₂
        (fun p p2 => p2.1 = p.1 ∧
          alookup p.2 (relabelAssocFrom pfx 0 used_vars) = some p2.2) m m2) maps maps2 := by
  match used_vars with
  | [] => exact Option.noConfusion h
  | u0 :: rest =>
    rw [relabel_vars_in_plan] at h
    cases hpfx : get_prefix_without_digits u0 with
    | none => rw [hpfx] at h; exact Option.noConfusion h
    | some pfx =>
      rw [hpfx] at h
      dsimp only at h
      cases hmo : mapOpt (fun m => mapOpt
          (fun p => (alookup p.2 (relabelAssocFrom pfx 0 (u0 :: rest))).map
            (fun n => (p.1, n))) m) maps with
      | none => rw [hmo] at h; exact Option.noConfusion h
      | some ms =>
        rw [hmo] at h
        rw [Option.map_some'] at h
        simp only [Option.some.injEq, Prod.mk.injEq] at h
        obtain ⟨h1, h2⟩ := h
        subst h1
        subst h2
        refine ⟨by simp, pfx, ?_, rfl, ?_⟩
        · intro u hu
          rw [List.head?_cons, Option.some.injEq] at hu
          subst hu
          exact hpfx
        · exact (mapOpt_some_forall₂ _ _ _ hmo).imp
            (fun m m2 hm => (mapOpt_some_forall₂ _ _ _ hm).imp
              (fun p p2 hp => relabel_pair_eq _ p p2 hp))

/-- Inversion of a successful `merge_specs_inner`. -/
theorem merge_specs_inner_inv (r : ℚ) (formulas : List (List Char))
    (env_vars_lists sys_vars_lists : List (List (List Char)))
    (env_shuffles sys_shuffles : List (List (List Char)))
    (rfs me ms : List (List Char))
    (h : merge_specs_inner r formulas env_vars_lists sys_vars_lists
      env_shuffles sys_shuffles = some (rfs, me, ms)) :
    ∃ env_count sys_count env_maps sys_maps used_env used_sys env_maps2 sys_maps2,
      calculate_merge_vars_count env_vars_lists r = some env_count ∧
      calculate_merge_vars_count sys_vars_lists r = some sys_count ∧
      get_random_replace_plan env_vars_lists (create_variable_array env_count ['e'])
        env_shuffles = some (env_maps, used_env) ∧
      get_random_replace_plan sys_vars_lists (create_variable_array sys_count ['s'])
        sys_shuffles = some (sys_maps, used_sys) ∧
      relabel_vars_in_plan env_maps used_env = some (env_maps2, me) ∧
      relabel_vars_in_plan sys_maps used_sys = some (sys_maps2, ms) ∧
      rfs = replace_in_formulas formulas env_maps2 sys_maps2 := by
  rw [merge_specs_inner.eq_def] at h
  cases hce : calculate_merge_vars_count env_vars_lists r with
  | none => rw [hce] at h; dsimp only at h; exact Option.noConfusion h
  | some env_count =>
    cases hcs : calculate_merge_vars_count sys_vars_lists r with
    | none => rw [hce, hcs] at h; dsimp only at h; exact Option.noConfusion h
    | some sys_count =>
      rw [hce, hcs] at h
      dsimp only at h
      cases hpe : get_random_replace_plan env_vars_lists
          (create_variable_array env_count ['e']) env_shuffles with
      | none => rw [hpe] at h; dsimp only at h; exact Option.noConfusion h
      | some prE =>
        cases hps : get_random_replace_plan sys_vars_lists
            (create_variable_array sys_count ['s']) sys_shuffles with
        | none => rw [hpe, hps] at h; dsimp only at h; exact Option.noConfusion h
        | some prS =>
          rw [hpe, hps] at h
          dsimp only at h
          cases hre : relabel_vars_in_plan prE.1 prE.2 with
          | none => rw [hre] at h; dsimp only at h; exact Option.noConfusion h
          | some rlE =>
            cases hrs : relabel_vars_in_plan prS.1 prS.2 with
            | none => rw [hre, hrs] at h; dsimp only at h; exact Option.noConfusion h
            | some rlS =>
              rw [hre, hrs] at h
              dsimp only at h
              simp only [Option.some.injEq, Prod.mk.injEq] at h
              obtain ⟨h1, h2, h3⟩ := h
              exact ⟨env_count, sys_count, prE.1, prS.1, prE.2, prS.2, rlE.1, rlS.1,
                rfl, rfl, hpe, hps, by rw [hre, ← h2], by rw [hrs, ← h3], h1.symm⟩

/-! ## Arithmetic facts about the pool-size computation -/

theorem foldl_max_le_add_sum : ∀ (l : List ℕ) (a : ℕ), l.foldl max a ≤ a + l.sum := by
  intro l
  induction l with
  | nil => intro a; simp
  | cons x l ih =>
    intro a
    rw [List.foldl_cons, List.sum_cons]
    have hm : max a x ≤ a + x := Nat.max_le.mpr ⟨Nat.le_add_right a x, Nat.le_add_left x a⟩
    calc l.foldl max (max a x) ≤ max a x + l.sum := ih _
      _ ≤ a + (x + l.sum) := by omega

theorem le_foldl_max : ∀ (l : List ℕ) (a : ℕ),
    a ≤ l.foldl max a ∧ ∀ x ∈ l, x ≤ l.foldl max a := by
  intro l
  induction l with
  | nil => intro a; exact ⟨le_rfl, by simp⟩
  | cons y l ih =>
    intro a
    rw [List.foldl_cons]
    obtain ⟨h1, h2⟩ := ih (max a y)
    refine ⟨le_trans (Nat.le_max_left a y) h1, ?_⟩
    intro x hx
    rcases List.mem_cons.mp hx with rfl | hx
    · exact le_trans (Nat.le_max_right a x) h1
    · exact h2 x hx

theorem maxCount_le_sumCount (vl : List (List (List Char))) : maxCount vl ≤ sumCount vl := by
  have := foldl_max_le_add_sum (specCounts vl) 0
  rw [Nat.zero_add] at this
  exact this

theorem length_le_maxCount (vl : List (List (List Char))) (l : List (List Char))
    (h : l ∈ vl) : l.length ≤ maxCount vl :=
  (le_foldl_max (specCounts vl) 0).2 l.length (List.mem_map.mpr ⟨l, h, rfl⟩)

/-! ## Facts about the variable scan `findPTokens` -/

/-- Every scan match is the letter `p` followed by a non-empty run of
identifier characters. -/
theorem findPTokens_shape : ∀ (s t : List Char), t ∈ findPTokens s →
    ∃ c u, t = 'p' :: c :: u ∧ identChar c = true ∧ ∀ x ∈ c :: u, identChar x = true := by
  have key : ∀ (n : ℕ) (s : List Char), s.length ≤ n → ∀ t ∈ findPTokens s,
      ∃ c u, t = 'p' :: c :: u ∧ identChar c = true ∧ ∀ x ∈ c :: u, identChar x = true := by
    intro n
    induction n with
    | zero =>
      intro s hs t ht
      cases s with
      | nil => rw [findPTokens_nil] at ht; simp at ht
      | cons c rest => simp at hs
    | succ n ih =>
      intro s hs t ht
      cases s with
      | nil => rw [findPTokens_nil] at ht; simp at ht
      | cons c rest =>
        simp only [List.length_cons] at hs
        rw [findPTokens_cons] at ht
        by_cases hm : c = 'p' ∧ rest.takeWhile identChar ≠ []
        · rw [if_pos hm] at ht
          rcases List.mem_cons.mp ht with rfl | ht
          · cases htw : rest.takeWhile identChar with
            | nil => exact absurd htw hm.2
            | cons c0 u0 =>
              refine ⟨c0, u0, rfl, ?_, ?_⟩
              · exact List.mem_takeWhile_imp (htw ▸ List.mem_cons_self c0 u0)
              · intro x hx
                exact List.mem_takeWhile_imp (htw ▸ hx)
          · refine ih (rest.dropWhile identChar) ?_ t ht
            have := (List.dropWhile_sublist (l := rest) identChar).length_le
            omega
        · rw [if_neg hm] at ht
          exact ih rest (by omega) t ht
  intro s t ht
  exact key s.length s le_rfl t ht

/-- The scan finds every maximal token that starts with `p` and has at
least two characters. -/
theorem findPTokens_append_ident (tk : List Char)
    (hid : ∀ c ∈ tk, identChar c = true) :
    ∀ u, Bdry u → ∀ t, t ∈ findPTokens u → t ∈ findPTokens (tk ++ u) := by
  induction tk with
  | nil => intro u _ t ht; exact ht
  | cons a tk ih =>
    intro u hb t ht
    rw [List.cons_append, findPTokens_cons]
    obtain ⟨htw, hdw⟩ := takeWhile_append_bdry identChar tk u hb
    by_cases hm : a = 'p' ∧ (tk ++ u).takeWhile identChar ≠ []
    · rw [if_pos hm]
      refine List.mem_cons_of_mem _ ?_
      have htk : tk.dropWhile identChar = [] :=
        (takeWhile_all identChar tk (fun c hc => hid c (List.mem_cons_of_mem a hc))).2
      rw [hdw, htk, List.nil_append]
      exact ht
    · rw [if_neg hm]
      exact ih (fun c hc => hid c (List.mem_cons_of_mem a hc)) u hb t ht

theorem findPTokens_complete : ∀ s : List Char, ∀ t ∈ tokens s,
    t.head? = some 'p' → 2 ≤ t.length → t ∈ findPTokens s := by
  intro s
  induction s using tokenInduction with
  | hnil => intro t ht; rw [tokens_nil] at ht; simp at ht
  | hid c rest hc ih =>
    intro t ht hp hl
    rw [tokens_cons, if_pos hc] at ht
    rw [findPTokens_cons]
    rcases List.mem_cons.mp ht with rfl | ht
    · have hcp : c = 'p' := by
        rw [List.head?_cons, Option.some.injEq] at hp
        exact hp
      have htw : rest.takeWhile identChar ≠ [] := by
        intro he
        rw [he] at hl
        simp at hl
      rw [if_pos ⟨hcp, htw⟩]
      rw [hcp]
      exact List.mem_cons_self _ _
    · have hmem := ih t ht hp hl
      by_cases hm : c = 'p' ∧ rest.takeWhile identChar ≠ []
      · rw [if_pos hm]
        exact List.mem_cons_of_mem _ hmem
      · rw [if_neg hm]
        have := findPTokens_append_ident (rest.takeWhile identChar)
          (fun x hx => List.mem_takeWhile_imp hx) (rest.dropWhile identChar)
          (bdry_dropWhile rest) t hmem
        rwa [List.takeWhile_append_dropWhile] at this
  | hni c rest hc ih =>
    intro t ht hp hl
    rw [tokens_cons, if_neg (by simp [hc])] at ht
    rw [findPTokens_cons, if_neg ?_]
    · exact ih t ht hp hl
    · rintro ⟨rfl, -⟩
      have : identChar 'p' = true := by decide
      rw [this] at hc
      simp at hc

theorem pShapedB_of_shape (v : List Char) (c : Char) (u : List Char)
    (hv : v = 'p' :: c :: u) (hall : ∀ x ∈ c :: u, identChar x = true) :
    pShapedB v = true := by
  subst hv
  show (('p' == 'p') && !((c :: u).isEmpty) && (c :: u).all identChar) = true
  simp only [List.isEmpty_cons, Bool.not_false, Bool.and_true, Bool.and_eq_true,
    List.all_eq_true]
  exact ⟨rfl, hall⟩

/-! ## Inversion of the per-spec load -/

theorem check_variable_repeat_eq (l : List (List Char)) :
    check_variable_repeat l = true ↔ ¬ l.Nodup := by
  simp [check_variable_repeat]

theorem check_variable_conflicts_eq (ev sv : List (List Char)) :
    check_variable_conflicts ev sv = true ↔ ∃ x ∈ ev, x ∈ sv := by
  simp [check_variable_conflicts]

theorem load_spec_one_ok (formula : List Char) (ev sv : List (List Char))
    (f : List Char) (nev nsv : List (List Char))
    (h : load_spec_one formula ev sv = .ok (f, nev, nsv)) :
    ev.Nodup ∧ sv.Nodup ∧ (¬ ∃ x ∈ ev, x ∈ sv) ∧
    f = add_brackets_if_needed formula ∧
    nev = ev.filter (fun v => decide (v ∈ get_used_variables f)) ∧
    nsv = sv.filter (fun v => decide (v ∈ get_used_variables f)) := by
  rw [load_spec_one] at h
  by_cases h1 : check_variable_repeat ev = true
  · rw [if_pos h1] at h
    exact Except.noConfusion h
  · rw [if_neg h1] at h
    by_cases h2 : check_variable_repeat sv = true
    · rw [if_pos h2] at h
      exact Except.noConfusion h
    · rw [if_neg h2] at h
      by_cases h3 : check_variable_conflicts ev sv = true
      · rw [if_pos h3] at h
        exact Except.noConfusion h
      · rw [if_neg h3] at h
        simp only [Except.ok.injEq, Prod.mk.injEq] at h
        obtain ⟨hf, hnev, hnsv⟩ := h
        subst hf
        refine ⟨?_, ?_, ?_, rfl, hnev.symm, hnsv.symm⟩
        · by_contra hc
          exact h1 ((check_variable_repeat_eq ev).mpr hc)
        · by_contra hc
          exact h2 ((check_variable_repeat_eq sv).mpr hc)
        · intro hc
          exact h3 ((check_variable_conflicts_eq ev sv).mpr hc)

/-! ## Shape of the relabeled pool names -/

theorem relabelAssocFrom_snd (pfx : List Char) : ∀ (i : ℕ) (us : List (List Char)),
    ∀ x ∈ (relabelAssocFrom pfx i us).map Prod.snd, ∃ j, x = pfx ++ natDigits j := by
  intro i us
  induction us generalizing i with
  | nil => intro x hx; simp [relabelAssocFrom] at hx
  | cons u us ih =>
    intro x hx
    rw [relabelAssocFrom, List.map_cons] at hx
    rcases List.mem_cons.mp hx with rfl | hx
    · exact ⟨i, rfl⟩
    · exact ih (i + 1) x hx

theorem get_prefix_pool_name (c0 : Char) (hc0 : c0.isDigit = false) (j : ℕ) :
    get_prefix_without_digits (c0 :: natDigits j) = some [c0] := by
  have htw : (c0 :: natDigits j).takeWhile (fun c => !c.isDigit) = [c0] := by
    rw [List.takeWhile_cons_of_pos (by simp [hc0])]
    cases hd : natDigits j with
    | nil => rfl
    | cons d ds =>
      rw [List.takeWhile_cons_of_neg]
      have := natDigits_all_digit j d (hd ▸ List.mem_cons_self d ds)
      simp [this]
  rw [get_prefix_without_digits, htw]
  rw [if_neg (by simp)]

theorem mem_create_variable_array (x : List Char) (n : ℤ) (pfx : List Char)
    (h : x ∈ create_variable_array n pfx) : ∃ j, x = pfx ++ natDigits j := by
  rw [create_variable_array] at h
  obtain ⟨i, hi, hx⟩ := List.mem_map.mp h
  exact ⟨i, hx.symm⟩

theorem plan_used_mem (ol : List (List (List Char))) (fv : List (List Char))
    (shs : List (List (List Char))) (maps : List (List (List Char × List Char)))
    (used : List (List Char))
    (h : get_random_replace_plan ol fv shs = some (maps, used)) :
    ∀ x ∈ used, x ∈ fv := by
  obtain ⟨hlen, hperm, hmaps, hidx, hused⟩ := get_random_replace_plan_inv ol fv shs maps used h
  intro x hx
  rw [hused, mem_dedupKeepFirst] at hx
  obtain ⟨m, hm, hxm⟩ := List.mem_flatMap.mp hx
  obtain ⟨p, hp, hpe⟩ := List.mem_map.mp hxm
  obtain ⟨⟨i, hi⟩, hget⟩ := List.mem_iff_get.mp hm
  have hilt : i < shs.length := by omega
  obtain ⟨rest, hpop⟩ := hidx i hi (by omega) hilt
  rw [hget] at hpop
  obtain ⟨-, hmem, -⟩ := popAssign_some _ _ _ _ hpop
  have hsh := hperm (shs.get ⟨i, hilt⟩) (shs.get_mem i hilt)
  exact hpe ▸ hsh.mem_iff.mp (hmem p hp)

/-- The final relabeled variable names of one class all have the shape
`{c0}{j}` when the pool names do. -/
theorem relabel_output_shape (ol : List (List (List Char))) (fv : List (List Char))
    (shs : List (List (List Char))) (maps : List (List (List Char × List Char)))
    (used : List (List Char)) (maps2 : List (List (List Char × List Char)))
    (rel : List (List Char)) (c0 : Char) (hc0 : c0.isDigit = false)
    (hfv : ∀ x ∈ fv, ∃ j, x = c0 :: natDigits j)
    (hplan : get_random_replace_plan ol fv shs = some (maps, used))
    (hrel : relabel_vars_in_plan maps used = some (maps2, rel)) :
    ∀ v ∈ rel, ∃ j, v = c0 :: natDigits j := by
  obtain ⟨hne, pfx, hpfx, hrel_eq, -⟩ := relabel_vars_in_plan_inv maps used maps2 rel hrel
  cases hu : used with
  | nil => exact absurd hu hne
  | cons u0 urest =>
    have hu0 : u0 ∈ used := hu ▸ List.mem_cons_self u0 urest
    obtain ⟨j, hj⟩ := hfv u0 (plan_used_mem ol fv shs maps used hplan u0 hu0)
    have hpfxval : pfx = [c0] := by
      have hh := hpfx u0 (by rw [hu]; rfl)
      rw [hj, get_prefix_pool_name c0 hc0 j] at hh
      exact (Option.some.inj hh).symm
    intro v hv
    rw [hrel_eq, hpfxval] at hv
    obtain ⟨j', hj'⟩ := relabelAssocFrom_snd [c0] 0 used v hv
    exact ⟨j', by rw [hj']; rfl⟩

/-- At share ratio `0` the pool size is `max(counts)`. -/
theorem calculate_merge_vars_count_zero (vl : List (List (List Char))) (hne : vl ≠ []) :
    calculate_merge_vars_count vl 0 = some (maxCount vl : ℤ) := by
  match vl with
  | [] => exact absurd rfl hne
  | v :: rest => simp [calculate_merge_vars_count, pyInt]

/-! ## Claim theorems -/

/-- C5: formula normalization returns the formula unchanged when its
first and last characters are already `(` and `)` — the
specification's criterion for being wrapped in an outer parenthesis
pair — and otherwise returns it wrapped in exactly one added pair of
parentheses; applying normalization to an already-normalized formula
changes nothing, so no formula ever receives a second wrapping layer. -/
theorem add_brackets_spec (f : List Char) :
    ((f.head? = some '(' ∧ f.getLast? = some ')') → add_brackets_if_needed f = f) ∧
    (¬ (f.head? = some '(' ∧ f.getLast? = some ')') →
      add_brackets_if_needed f = '(' :: (f ++ [')'])) ∧
    add_brackets_if_needed (add_brackets_if_needed f) = add_brackets_if_needed f := by
  refine ⟨fun h => by rw [add_brackets_if_needed, if_pos h],
          fun h => by rw [add_brackets_if_needed, if_neg h], ?_⟩
  by_cases h : f.head? = some '(' ∧ f.getLast? = some ')'
  · have hin : add_brackets_if_needed f = f := by rw [add_brackets_if_needed, if_pos h]
    rw [hin]
    exact hin
  · have hin : add_brackets_if_needed f = '(' :: (f ++ [')']) := by
      rw [add_brackets_if_needed, if_neg h]
    have hw : ('(' :: (f ++ [')'])).head? = some '(' ∧
        ('(' :: (f ++ [')'])).getLast? = some ')' := by
      constructor
      · rfl
      · show (('(' :: f) ++ [')']).getLast? = some ')'
        exact List.getLast?_concat _
    rw [hin, add_brackets_if_needed, if_pos hw]

theorem add_brackets_spec_witness :
    (¬ (("p1 U p2".toList).head? = some '(' ∧ ("p1 U p2".toList).getLast? = some ')')) ∧
    add_brackets_if_needed "p1 U p2".toList = "(p1 U p2)".toList ∧
    add_brackets_if_needed (add_brackets_if_needed "p1 U p2".toList) =
      add_brackets_if_needed "p1 U p2".toList := by
  have h := add_brackets_spec "p1 U p2".toList
  refine ⟨by decide, ?_, h.2.2⟩
  rw [h.2.1 (by decide)]
  decide

/-- C8: a spec whose declared environment and system lists share a name
is never loaded successfully (no output is produced), and — for
duplicate-free declared lists, so that the earlier repeat checks pass —
loading fails with the variable-conflict error exactly when such a
shared name exists. -/
theorem variable_conflict_check (formula : List Char) (ev sv : List (List Char)) :
    ((∃ x, x ∈ ev ∧ x ∈ sv) → ∀ out, load_spec_one formula ev sv ≠ .ok out) ∧
    (ev.Nodup → sv.Nodup →
      ((∃ x, x ∈ ev ∧ x ∈ sv) ↔ load_spec_one formula ev sv = .error .conflict)) := by
  constructor
  · rintro ⟨x, hx1, hx2⟩ out heq
    obtain ⟨-, -, hc, -⟩ := load_spec_one_ok formula ev sv out.1 out.2.1 out.2.2 (by rw [heq])
    exact hc ⟨x, hx1, hx2⟩
  · intro hne hns
    have h1 : ¬ check_variable_repeat ev = true := by
      rw [check_variable_repeat_eq]
      exact not_not_intro hne
    have h2 : ¬ check_variable_repeat sv = true := by
      rw [check_variable_repeat_eq]
      exact not_not_intro hns
    constructor
    · rintro ⟨x, hx1, hx2⟩
      have h3 : check_variable_conflicts ev sv = true :=
        (check_variable_conflicts_eq ev sv).mpr ⟨x, hx1, hx2⟩
      rw [load_spec_one, if_neg h1, if_neg h2, if_pos h3]
    · intro h
      by_contra hno
      have h3 : ¬ check_variable_conflicts ev sv = true := by
        rw [check_variable_conflicts_eq]
        rintro ⟨x, hx1, hx2⟩
        exact hno ⟨x, hx1, hx2⟩
      rw [load_spec_one, if_neg h1, if_neg h2, if_neg h3] at h
      exact Except.noConfusion h

theorem variable_conflict_check_witness :
    (∃ x, x ∈ ["p1".toList, "shared".toList] ∧ x ∈ ["p2".toList, "shared".toList]) ∧
    load_spec_one "p1 U p2".toList ["p1".toList, "shared".toList]
      ["p2".toList, "shared".toList] = .error .conflict := by
  have h := (variable_conflict_check "p1 U p2".toList ["p1".toList, "shared".toList]
    ["p2".toList, "shared".toList]).2 (by decide) (by decide)
  exact ⟨⟨"shared".toList, by decide, by decide⟩,
    h.mp ⟨"shared".toList, by decide, by decide⟩⟩

/-- C10: a declared variable whose name does not begin with the
lowercase letter `p` followed by at least one further letter, digit or
underscore is never classified as used by the scan, and is therefore
always dropped from the narrowed variable lists, even when it occurs
in the formula. -/
theorem non_p_vars_always_dropped (v : List Char)
    (hv : ∀ c u, v = 'p' :: c :: u → identChar c = false) :
    ∀ (formula : List Char) (ev sv : List (List Char)) (f : List Char)
      (nev nsv : List (List Char)),
      load_spec_one formula ev sv = .ok (f, nev, nsv) →
      v ∉ nev ∧ v ∉ nsv ∧ v ∉ get_used_variables f := by
  intro formula ev sv f nev nsv h
  obtain ⟨-, -, -, -, hnev, hnsv⟩ := load_spec_one_ok formula ev sv f nev nsv h
  have hnotused : v ∉ get_used_variables f := by
    intro hu
    obtain ⟨c, u, hshape, hident, -⟩ := findPTokens_shape f v hu
    rw [hv c u hshape] at hident
    exact Bool.noConfusion hident
  refine ⟨?_, ?_, hnotused⟩
  · rw [hnev]
    intro hm
    exact hnotused (of_decide_eq_true ((List.mem_filter.mp hm).2))
  · rw [hnsv]
    intro hm
    exact hnotused (of_decide_eq_true ((List.mem_filter.mp hm).2))

theorem non_p_vars_always_dropped_witness :
    (∀ c u, "q1".toList = 'p' :: c :: u → identChar c = false) ∧
    load_spec_one "q1".toList ["q1".toList] [] = .ok ("(q1)".toList, [], []) ∧
    "q1".toList ∉ ([] : List (List Char)) := by
  have hv : ∀ c u, "q1".toList = 'p' :: c :: u → identChar c = false := by
    intro c u hcu
    injection hcu with hq hrest
    exact absurd hq (by decide)
  have h := non_p_vars_always_dropped "q1".toList hv "q1".toList ["q1".toList] []
    "(q1)".toList [] [] (by decide)
  exact ⟨hv, by decide, h.1⟩

theorem map_nodup_ne {α β} (f : α → β) (l : List α) (h : (l.map f).Nodup) :
    ∀ p ∈ l, ∀ q ∈ l, f p = f q → p = q := by
  induction l with
  | nil => intro p hp; simp at hp
  | cons a l ih =>
    intro p hp q hq he
    rw [List.map_cons, List.nodup_cons] at h
    rcases List.mem_cons.mp hp with hp1 | hp1
    · rcases List.mem_cons.mp hq with hq1 | hq1
      · rw [hp1, hq1]
      · subst hp1
        have hmem : f p ∈ l.map f := by
          rw [he]
          exact List.mem_map.mpr ⟨q, hq1, rfl⟩
        exact absurd hmem h.1
    · rcases List.mem_cons.mp hq with hq1 | hq1
      · subst hq1
        have hmem : f q ∈ l.map f := by
          rw [← he]
          exact List.mem_map.mpr ⟨p, hp1, rfl⟩
        exact absurd hmem h.1
      · exact ih h.2 p hp1 q hq1 he

theorem length_create_variable_array (n : ℤ) (pfx : List Char) :
    (create_variable_array n pfx).length = n.toNat := by
  rw [create_variable_array, List.length_map, List.length_range]

/-- The pool-size value for any non-negative share ratio. -/
theorem calculate_merge_vars_count_eq (vl : List (List (List Char))) (q : ℚ)
    (hne : vl ≠ []) (hq : 0 ≤ q) :
    calculate_merge_vars_count vl q =
      some ((maxCount vl : ℤ) + ⌊((sumCount vl : ℚ) - (maxCount vl : ℚ)) * q⌋) := by
  have hsub : (0 : ℚ) ≤ (sumCount vl : ℚ) - (maxCount vl : ℚ) := by
    rw [sub_nonneg]
    exact_mod_cast maxCount_le_sumCount vl
  match vl with
  | [] => exact absurd rfl hne
  | v :: rest =>
    rw [calculate_merge_vars_count, pyInt, if_pos (mul_nonneg hsub hq)]

/-- C2: for a non-empty list of per-spec counts and a share ratio in
the unit interval, the computed pool size is
`max(counts) + floor((sum(counts) - max(counts)) * r)`; it equals
`max(counts)` at `r = 0` and `sum(counts)` at `r = 1`, and is
monotonically non-decreasing in `r`.  (The share ratio is modelled as
a rational number.) -/
theorem pool_size_formula (vl : List (List (List Char))) (r : ℚ)
    (hne : vl ≠ []) (h0 : 0 ≤ r) (h1 : r ≤ 1) :
    calculate_merge_vars_count vl r =
      some ((maxCount vl : ℤ) + ⌊((sumCount vl : ℚ) - (maxCount vl : ℚ)) * r⌋) ∧
    calculate_merge_vars_count vl 0 = some (maxCount vl : ℤ) ∧
    calculate_merge_vars_count vl 1 = some (sumCount vl : ℤ) ∧
    (∀ r' : ℚ, r ≤ r' → r' ≤ 1 →
      ∀ n n' : ℤ, calculate_merge_vars_count vl r = some n →
        calculate_merge_vars_count vl r' = some n' → n ≤ n') := by
  have hMS : maxCount vl ≤ sumCount vl := maxCount_le_sumCount vl
  have hsub : (0 : ℚ) ≤ (sumCount vl : ℚ) - (maxCount vl : ℚ) := by
    rw [sub_nonneg]
    exact_mod_cast hMS
  refine ⟨calculate_merge_vars_count_eq vl r hne h0,
    calculate_merge_vars_count_zero vl hne, ?_, ?_⟩
  · rw [calculate_merge_vars_count_eq vl 1 hne zero_le_one, mul_one]
    have hcast : ((sumCount vl : ℚ) - (maxCount vl : ℚ)) =
        (((sumCount vl : ℤ) - (maxCount vl : ℤ) : ℤ) : ℚ) := by
      push_cast
      ring
    rw [hcast, Int.floor_intCast]
    have : (maxCount vl : ℤ) ≤ (sumCount vl : ℤ) := by exact_mod_cast hMS
    congr 1
    omega
  · intro r' hrr h1' n n' hn hn'
    rw [calculate_merge_vars_count_eq vl r hne h0] at hn
    rw [calculate_merge_vars_count_eq vl r' hne (le_trans h0 hrr)] at hn'
    have hn2 := Option.some.inj hn
    have hn2' := Option.some.inj hn'
    rw [← hn2, ← hn2']
    have := Int.floor_le_floor (mul_le_mul_of_nonneg_left hrr hsub)
    omega

theorem pool_size_formula_witness :
    ([["p1".toList], ["p2".toList], ["p3".toList]] : List (List (List Char))) ≠ [] ∧
    (0 : ℚ) ≤ 0 ∧ (0 : ℚ) ≤ 1 ∧
    calculate_merge_vars_count [["p1".toList], ["p2".toList], ["p3".toList]] 0 =
      some (maxCount [["p1".toList], ["p2".toList], ["p3".toList]] : ℤ) := by
  have h := pool_size_formula [["p1".toList], ["p2".toList], ["p3".toList]] 0 (by decide)
    le_rfl zero_le_one
  exact ⟨by decide, le_rfl, zero_le_one, h.2.1⟩

/-- C7: for a non-empty list of per-spec variable lists and a share
ratio in the unit interval, the computed pool size is at least every
individual spec's variable count, so when the pools are built with
that size, drawing from a shuffled pool copy never pops from an empty
list: every per-spec assignment and the whole replace plan succeed. -/
theorem pool_size_sufficient (vl : List (List (List Char))) (pfx : List Char) (r : ℚ)
    (hne : vl ≠ []) (h0 : 0 ≤ r) (h1 : r ≤ 1) :
    ∃ n : ℤ, calculate_merge_vars_count vl r = some n ∧
      (∀ l ∈ vl, (l.length : ℤ) ≤ n) ∧
      ∀ shs : List (List (List Char)), shs.length = vl.length →
        (∀ sh ∈ shs, sh.Perm (create_variable_array n pfx)) →
        (∀ pr ∈ vl.zip shs, ∃ res, popAssign pr.1 pr.2 = some res) ∧
        ∃ res, get_random_replace_plan vl (create_variable_array n pfx) shs = some res := by
  have hsub : (0 : ℚ) ≤ (sumCount vl : ℚ) - (maxCount vl : ℚ) := by
    rw [sub_nonneg]
    exact_mod_cast maxCount_le_sumCount vl
  refine ⟨(maxCount vl : ℤ) + ⌊((sumCount vl : ℚ) - (maxCount vl : ℚ)) * r⌋,
    calculate_merge_vars_count_eq vl r hne h0, ?_, ?_⟩
  case refine_1 =>
    intro l hl
    have h1l : (l.length : ℤ) ≤ (maxCount vl : ℤ) := by
      exact_mod_cast length_le_maxCount vl l hl
    have h2l : 0 ≤ ⌊((sumCount vl : ℚ) - (maxCount vl : ℚ)) * r⌋ :=
      Int.floor_nonneg.mpr (mul_nonneg hsub h0)
    omega
  case refine_2 =>
    intro shs hlen hperm
    have hfl : 0 ≤ ⌊((sumCount vl : ℚ) - (maxCount vl : ℚ)) * r⌋ :=
      Int.floor_nonneg.mpr (mul_nonneg hsub h0)
    have hpop : ∀ pr ∈ vl.zip shs, ∃ res, popAssign pr.1 pr.2 = some res := by
      intro pr hpr
      obtain ⟨h1m, h2m⟩ := List.of_mem_zip hpr
      rw [popAssign_isSome_iff]
      have hsh : pr.2.length =
          ((maxCount vl : ℤ) + ⌊((sumCount vl : ℚ) - (maxCount vl : ℚ)) * r⌋).toNat := by
        rw [(hperm pr.2 h2m).length_eq, length_create_variable_array]
      rw [hsh]
      have h1l : pr.1.length ≤ maxCount vl := length_le_maxCount vl pr.1 h1m
      omega
    refine ⟨hpop, ?_⟩
    rw [get_random_replace_plan, if_pos ⟨hlen, hperm⟩]
    have hall : ∀ pr ∈ vl.zip shs, ∃ b, (popAssign pr.1 pr.2).map Prod.fst = some b := by
      intro pr hpr
      obtain ⟨res, hres⟩ := hpop pr hpr
      exact ⟨res.1, by rw [hres]; rfl⟩
    obtain ⟨ms, hms⟩ := mapOpt_some_of_forall _ (vl.zip shs) hall
    exact ⟨(ms, dedupKeepFirst (ms.flatMap (fun m => m.map Prod.snd))), by rw [hms]; rfl⟩

theorem pool_size_sufficient_witness :
    ([["p1".toList, "p2".toList], ["p3".toList]] : List (List (List Char))) ≠ [] ∧
    calculate_merge_vars_count [["p1".toList, "p2".toList], ["p3".toList]] 0 = some 2 ∧
    (∃ res, get_random_replace_plan [["p1".toList, "p2".toList], ["p3".toList]]
      (create_variable_array 2 ['e'])
      [["e0".toList, "e1".toList], ["e1".toList, "e0".toList]] = some res) := by
  obtain ⟨n, hn, hlens, hplan⟩ := pool_size_sufficient
    [["p1".toList, "p2".toList], ["p3".toList]] ['e'] 0 (by decide) le_rfl zero_le_one
  have hn2 : n = 2 := by
    rw [calculate_merge_vars_count_zero _ (by decide)] at hn
    have := Option.some.inj hn
    rw [← this]
    decide
  subst hn2
  obtain ⟨-, hres⟩ := hplan [["e0".toList, "e1".toList], ["e1".toList, "e0".toList]]
    (by decide) (by decide)
  exact ⟨by decide, hn, hres⟩

/-- C6: for every pool of distinct names whose size is at least each
spec's variable count, and every outcome of the per-spec shuffles, the
replace plan succeeds and each spec's assignment map is injective: two
distinct original names of the same spec are never mapped to the same
pool name. -/
theorem plan_within_spec_injectivity (vl : List (List (List Char)))
    (pool : List (List Char)) (shs : List (List (List Char)))
    (hnd : pool.Nodup) (hlen : shs.length = vl.length)
    (hperm : ∀ sh ∈ shs, sh.Perm pool) (hsz : ∀ l ∈ vl, l.length ≤ pool.length) :
    ∃ maps used, get_random_replace_plan vl pool shs = some (maps, used) ∧
      ∀ m ∈ maps, ∀ p ∈ m, ∀ q ∈ m, p.1 ≠ q.1 → p.2 ≠ q.2 := by
  have hall : ∀ pr ∈ vl.zip shs, ∃ b, (popAssign pr.1 pr.2).map Prod.fst = some b := by
    intro pr hpr
    obtain ⟨h1m, h2m⟩ := List.of_mem_zip hpr
    obtain ⟨res, hres⟩ := (popAssign_isSome_iff pr.1 pr.2).mpr (by
      rw [(hperm pr.2 h2m).length_eq]
      exact hsz pr.1 h1m)
    exact ⟨res.1, by rw [hres]; rfl⟩
  obtain ⟨ms, hms⟩ := mapOpt_some_of_forall _ (vl.zip shs) hall
  have hplan : get_random_replace_plan vl pool shs =
      some (ms, dedupKeepFirst (ms.flatMap (fun m => m.map Prod.snd))) := by
    rw [get_random_replace_plan, if_pos ⟨hlen, hperm⟩, hms]
    rfl
  refine ⟨ms, dedupKeepFirst (ms.flatMap (fun m => m.map Prod.snd)), hplan, ?_⟩
  intro m hm p hp q hq hne2 hsnd
  obtain ⟨-, -, hmlen, hidx, -⟩ := get_random_replace_plan_inv _ _ _ _ _ hplan
  obtain ⟨⟨i, hi⟩, hget⟩ := List.mem_iff_get.mp hm
  have hilt : i < shs.length := by omega
  obtain ⟨rest, hpopi⟩ := hidx i hi (by omega) hilt
  rw [hget] at hpopi
  obtain ⟨-, -, hndf⟩ := popAssign_some _ _ _ _ hpopi
  have hshnd : (shs.get ⟨i, hilt⟩).Nodup :=
    ((hperm _ (shs.get_mem i hilt)).nodup_iff).mpr hnd
  exact hne2 (congrArg Prod.fst (map_nodup_ne Prod.snd m (hndf hshnd) p hp q hq hsnd))

theorem plan_within_spec_injectivity_witness :
    (["e0".toList, "e1".toList] : List (List Char)).Nodup ∧
    (∃ maps used, get_random_replace_plan [["p1".toList, "p2".toList]]
      ["e0".toList, "e1".toList] [["e1".toList, "e0".toList]] = some (maps, used) ∧
      ∀ m ∈ maps, ∀ p ∈ m, ∀ q ∈ m, p.1 ≠ q.1 → p.2 ≠ q.2) := by
  refine ⟨by decide, ?_⟩
  exact plan_within_spec_injectivity [["p1".toList, "p2".toList]]
    ["e0".toList, "e1".toList] [["e1".toList, "e0".toList]]
    (by decide) (by decide) (by decide) (by decide)

/-- C4 counterexample: with declared environment list `[p1]` and raw
formula `qp1`, the loader keeps `p1` although `p1` does not occur in
the normalized formula as a maximal token with an alphabetic prefix —
the regex scan matches in the middle of the longer token `qp1`, so the
claimed "kept iff used as a maximal token" equivalence fails. -/
theorem narrowing_scan_cex :
    load_spec_one "qp1".toList ["p1".toList] [] =
      .ok ("(qp1)".toList, ["p1".toList], []) ∧
    "p1".toList ∈ (["p1".toList] : List (List Char)) ∧
    "p1".toList ∉ spec_maximal_var_tokens "(qp1)".toList := by
  refine ⟨by decide, by decide, by decide⟩

/-- C4 amended: a declared variable is kept in the narrowed list if
and only if it is among the matches of the greedy left-to-right scan
for `p` followed by identifier characters in the normalized formula —
a scan that can also match inside a longer identifier token.  Kept
variables keep their declaration order, every kept variable has the
shape `p` + identifier run, and every declared variable that does
occur as a maximal token starting with `p` (of length at least two) is
found by the scan and kept. -/
theorem narrowing_scan_amended (formula : List Char) (ev sv : List (List Char))
    (f : List Char) (nev nsv : List (List Char))
    (h : load_spec_one formula ev sv = .ok (f, nev, nsv)) :
    (∀ v, v ∈ nev ↔ v ∈ ev ∧ v ∈ get_used_variables f) ∧
    (∀ v, v ∈ nsv ↔ v ∈ sv ∧ v ∈ get_used_variables f) ∧
    nev.Sublist ev ∧ nsv.Sublist sv ∧
    (∀ v ∈ nev, pShapedB v = true) ∧ (∀ v ∈ nsv, pShapedB v = true) ∧
    (∀ v ∈ ev, v ∈ tokens f → v.head? = some 'p' → 2 ≤ v.length → v ∈ nev) ∧
    (∀ v ∈ sv, v ∈ tokens f → v.head? = some 'p' → 2 ≤ v.length → v ∈ nsv) := by
  obtain ⟨-, -, -, -, hnev, hnsv⟩ := load_spec_one_ok formula ev sv f nev nsv h
  subst hnev
  subst hnsv
  refine ⟨?_, ?_, List.filter_sublist _, List.filter_sublist _, ?_, ?_, ?_, ?_⟩
  · intro v
    rw [List.mem_filter, decide_eq_true_eq]
  · intro v
    rw [List.mem_filter, decide_eq_true_eq]
  · intro v hv
    have hu : v ∈ get_used_variables f := of_decide_eq_true (List.mem_filter.mp hv).2
    obtain ⟨c, u, hsh, -, hall⟩ := findPTokens_shape f v hu
    exact pShapedB_of_shape v c u hsh hall
  · intro v hv
    have hu : v ∈ get_used_variables f := of_decide_eq_true (List.mem_filter.mp hv).2
    obtain ⟨c, u, hsh, -, hall⟩ := findPTokens_shape f v hu
    exact pShapedB_of_shape v c u hsh hall
  · intro v hv htok hp hl
    rw [List.mem_filter]
    exact ⟨hv, decide_eq_true (findPTokens_complete f v htok hp hl)⟩
  · intro v hv htok hp hl
    rw [List.mem_filter]
    exact ⟨hv, decide_eq_true (findPTokens_complete f v htok hp hl)⟩

theorem narrowing_scan_amended_witness :
    load_spec_one "p1 U p10".toList ["p1".toList, "p10".toList] [] =
      .ok ("(p1 U p10)".toList, ["p1".toList, "p10".toList], []) ∧
    ("p1".toList ∈ (["p1".toList, "p10".toList] : List (List Char)) ∧
      "p1".toList ∈ get_used_variables "(p1 U p10)".toList) := by
  have h := narrowing_scan_amended "p1 U p10".toList ["p1".toList, "p10".toList] []
    "(p1 U p10)".toList ["p1".toList, "p10".toList] [] (by decide)
  exact ⟨by decide, (h.1 "p1".toList).mp (by decide)⟩

/-- C9 counterexample: the domain `{p1, pp1}` is prefix-free, yet
applying the relabeled replacements `p1 ↦ e0` (environment) and
`pp1 ↦ s0` (system) to the formula `(pp1)` in the two possible orders
gives different results, because `p1` occurs as a non-prefix substring
of `pp1` and `str.replace` is plain substring replacement. -/
theorem replace_order_cex :
    ("p1".toList.isPrefixOf "pp1".toList = false ∧
      "pp1".toList.isPrefixOf "p1".toList = false) ∧
    ([("pp1".toList, "s0".toList), ("p1".toList, "e0".toList)]).Perm
      [("p1".toList, "e0".toList), ("pp1".toList, "s0".toList)] ∧
    applyPairs [("p1".toList, "e0".toList), ("pp1".toList, "s0".toList)] "(pp1)".toList ≠
      applyPairs [("pp1".toList, "s0".toList), ("p1".toList, "e0".toList)] "(pp1)".toList := by
  refine ⟨by decide, by decide, by decide⟩

/-- C9 amended: applying a spec's replacement pairs is independent of
the order of application provided the stronger tokenwise conditions
hold: the original names are duplicate-free, non-empty identifier
strings that occur in the formula only as whole maximal tokens — in
particular, no original name is an infix (not merely a prefix) of
another or of any other token — the replacement targets are non-empty
identifier strings, and no original name is an infix of any
replacement target. -/
theorem replace_order_amended (ps : List (List Char × List Char)) (f : List Char)
    (hgp : GoodPairs ps f) (hnd : (ps.map Prod.fst).Nodup) :
    ∀ qs, qs.Perm ps → applyPairs qs f = applyPairs ps f := by
  intro qs hq
  exact applyPairs_perm_eq ps qs f hq hgp hnd

theorem replace_order_amended_witness :
    GoodPairs [("p1".toList, "e0".toList), ("p2".toList, "s0".toList)] "(p1 U p2)".toList ∧
    applyPairs [("p2".toList, "s0".toList), ("p1".toList, "e0".toList)] "(p1 U p2)".toList =
      applyPairs [("p1".toList, "e0".toList), ("p2".toList, "s0".toList)]
        "(p1 U p2)".toList := by
  have hgp : GoodPairs [("p1".toList, "e0".toList), ("p2".toList, "s0".toList)]
      "(p1 U p2)".toList := by decide
  exact ⟨hgp, replace_order_amended _ _ hgp (by decide) _ (by decide)⟩

/-- C3: for every successful run of the merge pipeline, the merged
environment variable list and the merged system variable list are
disjoint: environment names are drawn from the `e`-prefixed pool and
system names from the `s`-prefixed pool, and after relabeling every
surviving name still starts with its class letter. -/
theorem merged_vars_disjoint (r : ℚ) (formulas : List (List Char))
    (env_vars_lists sys_vars_lists env_shuffles sys_shuffles : List (List (List Char)))
    (rfs me ms : List (List Char))
    (h : merge_specs_inner r formulas env_vars_lists sys_vars_lists
      env_shuffles sys_shuffles = some (rfs, me, ms)) :
    ∀ v ∈ me, v ∉ ms := by
  obtain ⟨ec, sc, emaps, smaps, ue, us, em2, sm2, -, -, hpe, hps, hre, hrs, -⟩ :=
    merge_specs_inner_inv r formulas env_vars_lists sys_vars_lists env_shuffles sys_shuffles
      rfs me ms h
  have hfe : ∀ x ∈ create_variable_array ec ['e'], ∃ j, x = 'e' :: natDigits j := by
    intro x hx
    obtain ⟨j, hj⟩ := mem_create_variable_array x ec ['e'] hx
    exact ⟨j, hj⟩
  have hfs : ∀ x ∈ create_variable_array sc ['s'], ∃ j, x = 's' :: natDigits j := by
    intro x hx
    obtain ⟨j, hj⟩ := mem_create_variable_array x sc ['s'] hx
    exact ⟨j, hj⟩
  have hse := relabel_output_shape env_vars_lists (create_variable_array ec ['e'])
    env_shuffles emaps ue em2 me 'e' (by decide) hfe hpe hre
  have hss := relabel_output_shape sys_vars_lists (create_variable_array sc ['s'])
    sys_shuffles smaps us sm2 ms 's' (by decide) hfs hps hrs
  intro v hv hvms
  obtain ⟨j, hj⟩ := hse v hv
  obtain ⟨j', hj'⟩ := hss v hvms
  rw [hj] at hj'
  injection hj' with h1 h2
  exact absurd h1 (by decide)

theorem merged_vars_disjoint_witness :
    merge_specs_inner 0 ["(p1 U p2)".toList, "(p3 R p4)".toList]
      [["p1".toList], ["p3".toList]] [["p2".toList], ["p4".toList]]
      [["e0".toList], ["e0".toList]] [["s0".toList], ["s0".toList]]
      = some (["(e0 U s0)".toList, "(e0 R s0)".toList], ["e0".toList], ["s0".toList]) ∧
    "e0".toList ∉ ["s0".toList] := by
  have hm : merge_specs_inner 0 ["(p1 U p2)".toList, "(p3 R p4)".toList]
      [["p1".toList], ["p3".toList]] [["p2".toList], ["p4".toList]]
      [["e0".toList], ["e0".toList]] [["s0".toList], ["s0".toList]]
      = some (["(e0 U s0)".toList, "(e0 R s0)".toList], ["e0".toList], ["s0".toList]) := by
    rw [merge_specs_inner, calculate_merge_vars_count_zero _ (by decide),
      calculate_merge_vars_count_zero _ (by decide)]
    decide
  exact ⟨hm, merged_vars_disjoint 0 _ _ _ _ _ _ _ _ hm ("e0".toList) (by decide)⟩

/-! ## Structural lemmas for the round-trip claim -/

theorem pShapedB_elim (v : List Char) (h : pShapedB v = true) :
    (v ≠ [] ∧ ∀ c ∈ v, identChar c = true) ∧ ∃ c u, v = 'p' :: c :: u := by
  match v with
  | [] => exact Bool.noConfusion h
  | c0 :: u =>
    have h' : (c0 == 'p' && !u.isEmpty && u.all identChar) = true := h
    rw [Bool.and_eq_true, Bool.and_eq_true] at h'
    obtain ⟨⟨hc0, hne⟩, hall⟩ := h'
    simp only [beq_iff_eq] at hc0
    subst hc0
    cases u with
    | nil => simp at hne
    | cons c1 u1 =>
      refine ⟨⟨by simp, ?_⟩, c1, u1, rfl⟩
      intro x hx
      rcases List.mem_cons.mp hx with rfl | hx
      · decide
      · exact List.all_eq_true.mp hall x hx

theorem forall₂_map_fst {α β : Type} (R : (α × β) → (α × β) → Prop)
    (hR : ∀ p p2, R p p2 → p2.1 = p.1) :
    ∀ m m2 : List (α × β), List.Forall₂ R m m2 → m2.map Prod.fst = m.map Prod.fst := by
  intro m m2 hf
  induction hf with
  | nil => rfl
  | cons h _ ih => rw [List.map_cons, List.map_cons, hR _ _ h, ih]

theorem forall₂_mem_right {α β : Type} (R : α → β → Prop)
    (m : List α) (m2 : List β) (hf : List.Forall₂ R m m2) :
    ∀ b ∈ m2, ∃ a ∈ m, R a b := by
  induction hf with
  | nil => intro b hb; simp at hb
  | cons h _ ih =>
    intro b hb
    rcases List.mem_cons.mp hb with rfl | hb
    · exact ⟨_, List.mem_cons_self _ _, h⟩
    · obtain ⟨a, ha, hr⟩ := ih b hb
      exact ⟨a, List.mem_cons_of_mem _ ha, hr⟩

theorem forall₂_mem_left {α β : Type} (R : α → β → Prop)
    (m : List α) (m2 : List β) (hf : List.Forall₂ R m m2) :
    ∀ a ∈ m, ∃ b ∈ m2, R a b := by
  induction hf with
  | nil => intro a ha; simp at ha
  | cons h _ ih =>
    intro a ha
    rcases List.mem_cons.mp ha with rfl | ha
    · exact ⟨_, List.mem_cons_self _ _, h⟩
    · obtain ⟨b, hb, hr⟩ := ih a ha
      exact ⟨b, List.mem_cons_of_mem _ hb, hr⟩

theorem relabelAssocFrom_fst (pfx : List Char) :
    ∀ (i : ℕ) (us : List (List Char)), (relabelAssocFrom pfx i us).map Prod.fst = us := by
  intro i us
  induction us generalizing i with
  | nil => rfl
  | cons u us ih => rw [relabelAssocFrom, List.map_cons, ih]

/-- The tokens of the `' && '.join` of a list of formulas are the
concatenation of the tokens of the formulas. -/
theorem tokens_joinAnd : ∀ fs : List (List Char),
    tokens (joinAnd fs) = (fs.map tokens).flatten := by
  intro fs
  induction fs with
  | nil => rfl
  | cons f rest ih =>
    cases rest with
    | nil => simp [joinAnd]
    | cons g rest2 =>
      have hbd : Bdry (' ' :: '&' :: '&' :: ' ' :: joinAnd (g :: rest2)) := by
        intro d hd
        rw [List.head?_cons, Option.some.injEq] at hd
        subst hd
        decide
      rw [show joinAnd (f :: g :: rest2)
            = f ++ (' ' :: '&' :: '&' :: ' ' :: joinAnd (g :: rest2)) from rfl,
        tokens_append f _ hbd,
        tokens_cons, if_neg (by decide), tokens_cons, if_neg (by decide),
        tokens_cons, if_neg (by decide), tokens_cons, if_neg (by decide),
        ih]
      simp

/-- Assignment plus relabeling for one variable class (`e` or `s`): the
rewritten maps keep the original names as keys, every replacement
target is a final merged name, every merged name is some spec's
replacement target, and merged names have the pool shape. -/
theorem plan_relabel_class (c0 : Char) (hc0 : c0 = 'e' ∨ c0 = 's')
    (ol : List (List (List Char))) (cnt : ℤ) (shs : List (List (List Char)))
    (maps : List (List (List Char × List Char))) (ue : List (List Char))
    (m2 : List (List (List Char × List Char))) (rel : List (List Char))
    (hplan : get_random_replace_plan ol (create_variable_array cnt [c0]) shs = some (maps, ue))
    (hrel : relabel_vars_in_plan maps ue = some (m2, rel)) :
    m2.length = ol.length ∧
    (∀ i, i < ol.length →
      (m2.getD i []).map Prod.fst = ol.getD i [] ∧
      ∀ p ∈ m2.getD i [], p.2 ∈ rel) ∧
    (∀ v ∈ rel, ∃ i, i < ol.length ∧ ∃ p ∈ m2.getD i [], p.2 = v) ∧
    (∀ v ∈ rel, ∃ j, v = [c0] ++ natDigits j) := by
  obtain ⟨hshlen, hperm, hmlen, hidx, hueq⟩ :=
    get_random_replace_plan_inv ol (create_variable_array cnt [c0]) shs maps ue hplan
  obtain ⟨hne, pfx, hpfx, hrel_eq, hF2⟩ := relabel_vars_in_plan_inv maps ue m2 rel hrel
  have hc0d : c0.isDigit = false := by rcases hc0 with rfl | rfl <;> decide
  have hpfxval : pfx = [c0] := by
    cases hu : ue with
    | nil => exact absurd hu hne
    | cons u0 urest =>
      have hu0 : u0 ∈ ue := hu ▸ List.mem_cons_self u0 urest
      obtain ⟨j, hj⟩ := mem_create_variable_array u0 cnt [c0]
        (plan_used_mem ol _ shs maps ue hplan u0 hu0)
      have hj' : u0 = c0 :: natDigits j := hj
      have hh := hpfx u0 (by rw [hu]; rfl)
      rw [hj', get_prefix_pool_name c0 hc0d j] at hh
      exact (Option.some.inj hh).symm
  subst hpfxval
  have hndue : ue.Nodup := by rw [hueq]; exact dedupKeepFirst_nodup _
  have hkeysA : (relabelAssocFrom [c0] 0 ue).map Prod.fst = ue :=
    relabelAssocFrom_fst [c0] 0 ue
  have hndA : ((relabelAssocFrom [c0] 0 ue).map Prod.fst).Nodup := by
    rw [hkeysA]; exact hndue
  have hm2len : m2.length = ol.length := by rw [← hF2.length_eq]; exact hmlen
  refine ⟨hm2len, ?_, ?_, ?_⟩
  · intro i hi
    have hi1 : i < maps.length := by rw [hmlen]; exact hi
    have hi3 : i < shs.length := by rw [hshlen]; exact hi
    have hi4 : i < m2.length := by rw [hm2len]; exact hi
    obtain ⟨rest, hpop⟩ := hidx i hi1 hi hi3
    obtain ⟨hkeys, -, -⟩ := popAssign_some _ _ _ _ hpop
    have hF2i := (List.forall₂_iff_get.mp hF2).2 i hi1 hi4
    constructor
    · rw [List.getD_eq_get _ _ hi4, List.getD_eq_get _ _ hi,
        forall₂_map_fst _ (fun p p2 h => h.1) _ _ hF2i, hkeys]
    · intro p2 hp2
      rw [List.getD_eq_get _ _ hi4] at hp2
      obtain ⟨p, hpmem, h1, h2⟩ := forall₂_mem_right _ _ _ hF2i p2 hp2
      rw [hrel_eq]
      exact List.mem_map.mpr ⟨(p.2, p2.2), alookup_some_mem _ _ _ h2, rfl⟩
  · intro v hv
    rw [hrel_eq] at hv
    obtain ⟨q, hq, hqv⟩ := List.mem_map.mp hv
    have hq1 : q.1 ∈ ue := by
      rw [← hkeysA]
      exact List.mem_map.mpr ⟨q, hq, rfl⟩
    rw [hueq, mem_dedupKeepFirst] at hq1
    obtain ⟨mI, hmI, hq1m⟩ := List.mem_flatMap.mp hq1
    obtain ⟨p, hp, hpq⟩ := List.mem_map.mp hq1m
    obtain ⟨⟨i, hi⟩, hget⟩ := List.mem_iff_get.mp hmI
    have hilt : i < ol.length := by rw [← hmlen]; exact hi
    have hi4 : i < m2.length := by rw [hm2len]; exact hilt
    refine ⟨i, hilt, ?_⟩
    have hF2i := (List.forall₂_iff_get.mp hF2).2 i hi hi4
    rw [hget] at hF2i
    obtain ⟨p2, hp2, hp21, hp2a⟩ := forall₂_mem_left _ _ _ hF2i p hp
    have halq : alookup q.1 (relabelAssocFrom [c0] 0 ue) = some v := by
      apply alookup_of_mem_nodup _ _ _ hndA
      rw [← hqv, Prod.mk.eta]
      exact hq
    rw [hpq, halq] at hp2a
    have hv2 : p2.2 = v := (Option.some.inj hp2a).symm
    refine ⟨p2, ?_, hv2⟩
    rw [List.getD_eq_get _ _ hi4]
    exact hp2
  · intro v hv
    rw [hrel_eq] at hv
    exact relabelAssocFrom_snd [c0] 0 ue v hv

/-- Per-index content of a successful merge run: each rewritten formula
is the tokenwise image of its source under the combined replacement
map, the map keys are the declared lists, replacement targets are
merged names, and every merged name is some spec's replacement
target. -/
theorem merge_pipeline_core (r : ℚ) (formulas : List (List Char))
    (el sl eshs sshs : List (List (List Char)))
    (rfs me ms : List (List Char))
    (hlen1 : el.length = formulas.length) (hlen2 : sl.length = formulas.length)
    (hok : ∀ i, i < formulas.length →
      SpecOK (formulas.getD i []) (el.getD i []) (sl.getD i []))
    (hm : merge_specs_inner r formulas el sl eshs sshs = some (rfs, me, ms)) :
    rfs.length = formulas.length ∧
    ∃ em2 sm2 : List (List (List Char × List Char)),
      (∀ i, i < formulas.length →
        tokens (rfs.getD i []) =
          (tokens (formulas.getD i [])).map (substFn (em2.getD i [] ++ sm2.getD i [])) ∧
        (em2.getD i []).map Prod.fst = el.getD i [] ∧
        (sm2.getD i []).map Prod.fst = sl.getD i [] ∧
        (∀ p ∈ em2.getD i [], p.2 ∈ me) ∧
        (∀ p ∈ sm2.getD i [], p.2 ∈ ms)) ∧
      (∀ v ∈ me, ∃ i, i < formulas.length ∧ ∃ p ∈ em2.getD i [], p.2 = v) ∧
      (∀ v ∈ ms, ∃ i, i < formulas.length ∧ ∃ p ∈ sm2.getD i [], p.2 = v) := by
  obtain ⟨ec, sc, emaps, smaps, ue, us, em2, sm2, -, -, hpe, hps, hre, hrs, hrfs⟩ :=
    merge_specs_inner_inv r formulas el sl eshs sshs rfs me ms hm
  obtain ⟨hem2len, hperE, hsurjE, hshE⟩ :=
    plan_relabel_class 'e' (Or.inl rfl) el ec eshs emaps ue em2 me hpe hre
  obtain ⟨hsm2len, hperS, hsurjS, hshS⟩ :=
    plan_relabel_class 's' (Or.inr rfl) sl sc sshs smaps us sm2 ms hps hrs
  subst hrfs
  have hem2F : em2.length = formulas.length := by rw [hem2len, hlen1]
  have hsm2F : sm2.length = formulas.length := by rw [hsm2len, hlen2]
  have hrfslen : (replace_in_formulas formulas em2 sm2).length = formulas.length := by
    rw [replace_in_formulas, List.length_map, List.length_zip, List.length_zip,
      hem2F, hsm2F]
    simp
  refine ⟨hrfslen, em2, sm2, ?_, ?_, ?_⟩
  · intro i hi
    have hiel : i < el.length := by rw [hlen1]; exact hi
    have hisl : i < sl.length := by rw [hlen2]; exact hi
    obtain ⟨hkE, hsE⟩ := hperE i hiel
    obtain ⟨hkS, hsS⟩ := hperS i hisl
    refine ⟨?_, hkE, hkS, hsE, hsS⟩
    have hi2 : i < em2.length := by rw [hem2F]; exact hi
    have hi3 : i < sm2.length := by rw [hsm2F]; exact hi
    have hi4 : i < (replace_in_formulas formulas em2 sm2).length := by
      rw [hrfslen]; exact hi
    have hrfsI : (replace_in_formulas formulas em2 sm2).getD i [] =
        applyPairs (em2.getD i [] ++ sm2.getD i []) (formulas.getD i []) := by
      rw [List.getD_eq_getElem _ _ hi4, List.getD_eq_getElem _ _ hi,
        List.getD_eq_getElem _ _ hi2, List.getD_eq_getElem _ _ hi3]
      simp [replace_in_formulas, List.getElem_zip]
    obtain ⟨hok1, hok2, hok3, hok4, hok5⟩ := hok i hi
    have hkeys : (em2.getD i [] ++ sm2.getD i []).map Prod.fst
        = el.getD i [] ++ sl.getD i [] := by
      rw [List.map_append, hkE, hkS]
    have hvals : ∀ p ∈ em2.getD i [] ++ sm2.getD i [], p.2 ∈ me ∨ p.2 ∈ ms := by
      intro p hp
      rcases List.mem_append.mp hp with hp | hp
      · exact Or.inl (hsE p hp)
      · exact Or.inr (hsS p hp)
    have hshape2 : ∀ v2, v2 ∈ me ∨ v2 ∈ ms →
        (v2 ≠ [] ∧ ∀ c ∈ v2, identChar c = true) ∧ 'p' ∉ v2 := by
      intro v2 hv2
      rcases hv2 with hv2 | hv2
      · obtain ⟨j, hj⟩ := hshE v2 hv2
        rw [hj]
        exact pool_name_chars 'e' (Or.inl rfl) j
      · obtain ⟨j, hj⟩ := hshS v2 hv2
        rw [hj]
        exact pool_name_chars 's' (Or.inr rfl) j
    have hgp : GoodPairs (em2.getD i [] ++ sm2.getD i []) (formulas.getD i []) := by
      refine ⟨?_, ?_, ?_, ?_⟩
      · intro p hp
        have hp1 : p.1 ∈ el.getD i [] ++ sl.getD i [] := by
          rw [← hkeys]
          exact List.mem_map.mpr ⟨p, hp, rfl⟩
        exact (pShapedB_elim p.1 (hok1 p.1 hp1)).1
      · intro p hp
        exact (hshape2 p.2 (hvals p hp)).1
      · intro p hp t ht hinf
        have hp1 : p.1 ∈ el.getD i [] ++ sl.getD i [] := by
          rw [← hkeys]
          exact List.mem_map.mpr ⟨p, hp, rfl⟩
        exact hok4 t ht p.1 hp1 hinf
      · intro p hp q hq hinf
        have hp1 : p.1 ∈ el.getD i [] ++ sl.getD i [] := by
          rw [← hkeys]
          exact List.mem_map.mpr ⟨p, hp, rfl⟩
        obtain ⟨-, c, u, hpc⟩ := pShapedB_elim p.1 (hok1 p.1 hp1)
        have hpmem : 'p' ∈ p.1 := by rw [hpc]; exact List.mem_cons_self _ _
        exact (hshape2 q.2 (hvals q hq)).2 (hinf.mem hpmem)
    have hf : ∀ t ∈ tokens (formulas.getD i []),
        substFn (em2.getD i [] ++ sm2.getD i []) t ≠ [] ∧
          ∀ c ∈ substFn (em2.getD i [] ++ sm2.getD i []) t, identChar c = true := by
      intro t ht
      cases halt : alookup t (em2.getD i [] ++ sm2.getD i []) with
      | none =>
        have hid : substFn (em2.getD i [] ++ sm2.getD i []) t = t := by
          rw [substFn, halt]
          rfl
        rw [hid]
        exact tokens_sound _ t ht
      | some v =>
        have hsv : substFn (em2.getD i [] ++ sm2.getD i []) t = v := by
          rw [substFn, halt]
          rfl
        rw [hsv]
        have hmem := alookup_some_mem t v _ halt
        exact (hshape2 v (hvals (t, v) hmem)).1
    rw [hrfsI, applyPairs_eq_tokMap _ _ hgp, tokens_tokMap _ _ hf]
  · intro v hv
    obtain ⟨i, hi, hp⟩ := hsurjE v hv
    exact ⟨i, by rw [← hlen1]; exact hi, hp⟩
  · intro v hv
    obtain ⟨i, hi, hp⟩ := hsurjS v hv
    exact ⟨i, by rw [← hlen2]; exact hi, hp⟩

/-- C1 counterexample: on a valid merge input in which one declared
name (`p1`) is a proper substring of another (`p10`), the naive
substring replacement corrupts the merged text: the rewritten formulas
contain the variable-shaped token `e00`, which is in neither merged
variable list. -/
theorem merge_round_trip_cex :
    merge_specs_inner 0 ["(p1 U p10 U p2)".toList, "(p3 U p4)".toList]
      [["p1".toList, "p10".toList], ["p3".toList]] [["p2".toList], ["p4".toList]]
      [["e1".toList, "e0".toList], ["e0".toList, "e1".toList]]
      [["s0".toList], ["s0".toList]]
      = some (["(e0 U e00 U s0)".toList, "(e1 U s0)".toList],
          ["e0".toList, "e1".toList], ["s0".toList]) ∧
    "e00".toList ∈ tokens (convert_spec_to_string
        ["(e0 U e00 U s0)".toList, "(e1 U s0)".toList]
        ["e0".toList, "e1".toList] ["s0".toList]).1 ∧
    varShapedB "e00".toList = true ∧
    "e00".toList ∉ ["e0".toList, "e1".toList] ∧ "e00".toList ∉ ["s0".toList] := by
  refine ⟨?_, by decide, by decide, by decide, by decide⟩
  rw [merge_specs_inner, calculate_merge_vars_count_zero _ (by decide),
    calculate_merge_vars_count_zero _ (by decide)]
  decide

/-- C1 (amended): for a successful merge run in which every spec
satisfies the tokenwise conditions `SpecOK` — its declared names are
scanner-shaped, duplicate-free, occur in its formula only as whole
maximal tokens (in particular no declared name is a substring of any
longer token), and the formula has no pool-shaped token and no
undeclared scanner-shaped token — every variable-shaped token of the
merged formula text is a merged environment or system name, and
conversely every merged environment or system name occurs in the
merged formula text. -/
theorem merge_round_trip_tokenwise (r : ℚ) (formulas : List (List Char))
    (el sl eshs sshs : List (List (List Char)))
    (rfs me ms : List (List Char))
    (hlen1 : el.length = formulas.length) (hlen2 : sl.length = formulas.length)
    (hok : ∀ i, i < formulas.length →
      SpecOK (formulas.getD i []) (el.getD i []) (sl.getD i []))
    (hm : merge_specs_inner r formulas el sl eshs sshs = some (rfs, me, ms)) :
    (∀ t ∈ tokens (convert_spec_to_string rfs me ms).1,
        varShapedB t = true → t ∈ me ∨ t ∈ ms) ∧
    (∀ v, v ∈ me ∨ v ∈ ms → v ∈ tokens (convert_spec_to_string rfs me ms).1) := by
  obtain ⟨hrfslen, em2, sm2, hper, hsurjE, hsurjS⟩ :=
    merge_pipeline_core r formulas el sl eshs sshs rfs me ms hlen1 hlen2 hok hm
  constructor
  · intro t ht hvar
    have ht' : t ∈ tokens (joinAnd rfs) := ht
    rw [tokens_joinAnd] at ht'
    obtain ⟨l, hl, htl⟩ := List.mem_flatten.mp ht'
    obtain ⟨fI, hfI, rfl⟩ := List.mem_map.mp hl
    obtain ⟨⟨i, hi⟩, hget⟩ := List.mem_iff_get.mp hfI
    have hilt : i < formulas.length := by rw [← hrfslen]; exact hi
    obtain ⟨htokI, hkE, hkS, hsE, hsS⟩ := hper i hilt
    have hfID : rfs.getD i [] = fI := by rw [List.getD_eq_get _ _ hi, hget]
    rw [hfID] at htokI
    rw [htokI] at htl
    obtain ⟨t0, ht0, rfl⟩ := List.mem_map.mp htl
    cases halt : alookup t0 (em2.getD i [] ++ sm2.getD i []) with
    | some v =>
      have hsv : substFn (em2.getD i [] ++ sm2.getD i []) t0 = v := by
        rw [substFn, halt]; rfl
      rw [hsv]
      have hmem := alookup_some_mem t0 v _ halt
      rcases List.mem_append.mp hmem with hmem | hmem
      · exact Or.inl (hsE _ hmem)
      · exact Or.inr (hsS _ hmem)
    | none =>
      exfalso
      have hid : substFn (em2.getD i [] ++ sm2.getD i []) t0 = t0 := by
        rw [substFn, halt]; rfl
      rw [hid] at hvar
      obtain ⟨hok1, hok2, hok3, hok4, hok5⟩ := hok i hilt
      obtain ⟨hpool, himp⟩ := hok5 t0 ht0
      have hps : pShapedB t0 = true := by
        rw [varShapedB, Bool.or_eq_true] at hvar
        rcases hvar with h | h
        · exact h
        · rw [hpool] at h; exact Bool.noConfusion h
      have ht0mem := himp hps
      rw [alookup_eq_none_iff] at halt
      apply halt
      rw [List.map_append, hkE, hkS]
      exact ht0mem
  · intro v hv
    show v ∈ tokens (joinAnd rfs)
    rw [tokens_joinAnd]
    rcases hv with hv | hv
    · obtain ⟨i, hilt, p, hp, hpv⟩ := hsurjE v hv
      obtain ⟨htokI, hkE, hkS, hsE, hsS⟩ := hper i hilt
      obtain ⟨hok1, hok2, hok3, hok4, hok5⟩ := hok i hilt
      have hp1 : p.1 ∈ el.getD i [] := by
        rw [← hkE]
        exact List.mem_map.mpr ⟨p, hp, rfl⟩
      have hp1t : p.1 ∈ tokens (formulas.getD i []) :=
        hok3 p.1 (List.mem_append_left _ hp1)
      have hndE : ((em2.getD i []).map Prod.fst).Nodup := by
        rw [hkE]
        exact hok2.of_append_left
      have halk : alookup p.1 (em2.getD i [] ++ sm2.getD i []) = some v :=
        alookup_append_left _ _ _ _
          (alookup_of_mem_nodup _ _ _ hndE (by rw [← hpv, Prod.mk.eta]; exact hp))
      have hsub : substFn (em2.getD i [] ++ sm2.getD i []) p.1 = v := by
        rw [substFn, halk]; rfl
      have hir : i < rfs.length := by rw [hrfslen]; exact hilt
      refine List.mem_flatten.mpr ⟨tokens (rfs.getD i []), ?_, ?_⟩
      · exact List.mem_map.mpr ⟨rfs.getD i [],
          by rw [List.getD_eq_getElem _ _ hir]; exact List.getElem_mem _, rfl⟩
      · rw [htokI]
        exact List.mem_map.mpr ⟨p.1, hp1t, hsub⟩
    · obtain ⟨i, hilt, p, hp, hpv⟩ := hsurjS v hv
      obtain ⟨htokI, hkE, hkS, hsE, hsS⟩ := hper i hilt
      obtain ⟨hok1, hok2, hok3, hok4, hok5⟩ := hok i hilt
      have hp1 : p.1 ∈ sl.getD i [] := by
        rw [← hkS]
        exact List.mem_map.mpr ⟨p, hp, rfl⟩
      have hp1t : p.1 ∈ tokens (formulas.getD i []) :=
        hok3 p.1 (List.mem_append_right _ hp1)
      have hndS : ((sm2.getD i []).map Prod.fst).Nodup := by
        rw [hkS]
        exact hok2.of_append_right
      have hp1notE : p.1 ∉ (em2.getD i []).map Prod.fst := by
        rw [hkE]
        intro hmem
        rcases List.nodup_append.mp hok2 with ⟨-, -, hdisj⟩
        exact hdisj hmem hp1
      have halk : alookup p.1 (em2.getD i [] ++ sm2.getD i []) = some v := by
        rw [alookup_append_right _ _ _ hp1notE]
        exact alookup_of_mem_nodup _ _ _ hndS (by rw [← hpv, Prod.mk.eta]; exact hp)
      have hsub : substFn (em2.getD i [] ++ sm2.getD i []) p.1 = v := by
        rw [substFn, halk]; rfl
      have hir : i < rfs.length := by rw [hrfslen]; exact hilt
      refine List.mem_flatten.mpr ⟨tokens (rfs.getD i []), ?_, ?_⟩
      · exact List.mem_map.mpr ⟨rfs.getD i [],
          by rw [List.getD_eq_getElem _ _ hir]; exact List.getElem_mem _, rfl⟩
      · rw [htokI]
        exact List.mem_map.mpr ⟨p.1, hp1t, hsub⟩

theorem merge_round_trip_tokenwise_witness :
    (["(p1 U p2)".toList, "(p3 R p4)".toList].length = 2 ∧
      (∀ i, i < 2 → SpecOK (["(p1 U p2)".toList, "(p3 R p4)".toList].getD i [])
        ([["p1".toList], ["p3".toList]].getD i []) ([["p2".toList], ["p4".toList]].getD i [])) ∧
      merge_specs_inner 0 ["(p1 U p2)".toList, "(p3 R p4)".toList]
        [["p1".toList], ["p3".toList]] [["p2".toList], ["p4".toList]]
        [["e0".toList], ["e0".toList]] [["s0".toList], ["s0".toList]]
        = some (["(e0 U s0)".toList, "(e0 R s0)".toList], ["e0".toList], ["s0".toList])) ∧
    ((∀ t ∈ tokens (convert_spec_to_string ["(e0 U s0)".toList, "(e0 R s0)".toList]
          ["e0".toList] ["s0".toList]).1,
        varShapedB t = true → t ∈ ["e0".toList] ∨ t ∈ ["s0".toList]) ∧
      (∀ v, v ∈ ["e0".toList] ∨ v ∈ ["s0".toList] →
        v ∈ tokens (convert_spec_to_string ["(e0 U s0)".toList, "(e0 R s0)".toList]
          ["e0".toList] ["s0".toList]).1)) := by
  have hm : merge_specs_inner 0 ["(p1 U p2)".toList, "(p3 R p4)".toList]
      [["p1".toList], ["p3".toList]] [["p2".toList], ["p4".toList]]
      [["e0".toList], ["e0".toList]] [["s0".toList], ["s0".toList]]
      = some (["(e0 U s0)".toList, "(e0 R s0)".toList], ["e0".toList], ["s0".toList]) := by
    rw [merge_specs_inner, calculate_merge_vars_count_zero _ (by decide),
      calculate_merge_vars_count_zero _ (by decide)]
    decide
  exact ⟨⟨by decide, by decide, hm⟩,
    merge_round_trip_tokenwise 0 ["(p1 U p2)".toList, "(p3 R p4)".toList]
      [["p1".toList], ["p3".toList]] [["p2".toList], ["p4".toList]]
      [["e0".toList], ["e0".toList]] [["s0".toList], ["s0".toList]]
      ["(e0 U s0)".toList, "(e0 R s0)".toList] ["e0".toList] ["s0".toList]
      (by decide) (by decide) (by decide) hm⟩
